import Mathlib

/-!
Verification of the `atomic-file` crate: a versioned on-disk store
(`src/atomic.rs`) with an optimistic compare-and-swap publish protocol and
two read-modify-write retry loops (`src/lib.rs`, `modify` and `modify_json`).

Shallow embedding conventions:

* A store directory is a value of type `Fs`: a list of directory entries
  (name, inode id) together with per-inode byte contents.  All operations of
  the crate act on one directory, so the directory component of paths is
  elided; `ReadOnlyFile.path` and `TmpFile.path` hold the file name within
  the store directory.
* OS strings (`OsStr`) are inspected by the code only through `to_str()`,
  so they are modelled by `OsName`: either a valid-UTF-8 name (carried as
  its list of characters) or an undecodable name identified by a tag.
* File contents are byte strings; every content handled here is UTF-8 text,
  so bytes are modelled as `List Char`.
* Machine integers (`usize`) are `Nat`; `str::parse::<usize>` checks the
  `usize::MAX` bound explicitly (`parseUsize`).
* `format!("{version}")` is modelled by `natRepr`, a fuelled (hence
  kernel-computable) decimal rendering.
* Fallible operations return `Except ErrorKind α`; `ErrorKind` models the
  `io::ErrorKind` values the crate inspects or produces.
* `nix::unistd::linkat` is modelled by `linkat`.  The boolean argument `sp`
  models the behaviour, documented in the `open(2)` man page and quoted in
  `compare_and_swap`, of filesystems whose link creation is not perfectly
  atomic: when `sp = true` a successful link is nevertheless reported as
  `EEXIST` (the "spurious" outcome the link-count check disambiguates).
* `TmpFile` is dropped when `compare_and_swap` consumes it; the unlink that
  the drop performs is modelled by `removeName`, applied by the callers of
  `compare_and_swap` right after it returns, matching the drop point.
-/

namespace AtomicStore

/-- The `io::ErrorKind` values relevant to the crate: `AlreadyExists`
(`EEXIST` from `linkat`, the conflict signal), `NotFound` (`ENOENT` from
`File::open` / `metadata`), `InvalidInput` (path validation in
`AtomicFile::new`), and `InvalidData` (the kind `serde_json` decode errors
are surfaced as through `io::Error`). -/
inductive ErrorKind
  | alreadyExists
  | notFound
  | invalidInput
  | invalidData
  deriving DecidableEq, Repr

/-- File contents.  All contents handled by the crate here are UTF-8 text,
so a byte string is modelled as its list of characters. -/
abbrev Bytes := List Char

/-- An OS string as the code observes it: `to_str()` either yields the
decoded text or fails (non-UTF-8 name). -/
inductive OsName
  | utf8 (s : List Char)
  | nonUtf8 (id : Nat)
  deriving DecidableEq, Repr

/-- `usize::MAX` on the 64-bit targets the crate runs on. -/
def usizeMax : Nat := 2 ^ 64 - 1

/-- The decimal digit character for `d < 10` (as produced by `format!`). -/
def digitChar (d : Nat) : Char := Char.ofNat (48 + d)

/-- Fuelled decimal rendering (structural recursion so that the kernel can
evaluate it). -/
def natReprAux (fuel n : Nat) : List Char :=
  match fuel with
  | 0 => []
  | fuel + 1 =>
    if n < 10 then [digitChar n]
    else natReprAux fuel (n / 10) ++ [digitChar (n % 10)]

/-- Decimal rendering of a `Nat`, modelling `format!("{n}")`. -/
def natRepr (n : Nat) : List Char := natReprAux (n + 1) n

/-- Numeric value of a digit string, most significant digit first. -/
def parseVal (t : List Char) : Nat :=
  t.foldl (fun a c => a * 10 + (c.toNat - 48)) 0

/-- Parse a non-empty all-digit string as a `usize`, rejecting overflow. -/
def parseDigits (t : List Char) : Option Nat :=
  if t ≠ [] ∧ t.all (fun c => c.isDigit) then
    if parseVal t ≤ usizeMax then some (parseVal t) else none
  else none

/-- Model of `str::parse::<usize>`: an optional leading `+`, then one or
more decimal digits, rejecting values above `usize::MAX`. -/
def parseUsize : List Char → Option Nat
  | '+' :: t => parseDigits t
  | cs => parseDigits cs

/-- `sw s p` holds when the string `s` starts with the pattern `p`
(model of `str::starts_with`). -/
def sw : List Char → List Char → Bool
  | _, [] => true
  | [], _ :: _ => false
  | c :: cs, p :: ps => c = p && sw cs ps

/-- Model of `parse_version` (src/atomic.rs): the name must decode as
UTF-8, start with the store's filename-derived pattern `pfx`, and the rest
must parse as a `usize`.  Rust slices the suffix at `prefix.len()` bytes;
given that the name starts with `pfx`, this equals dropping `pfx.length`
characters. -/
def parse_version (filename : OsName) (pfx : List Char) : Option Nat :=
  match filename with
  | .nonUtf8 _ => none
  | .utf8 s => if sw s pfx then parseUsize (s.drop pfx.length) else none

/-- Model of `AtomicFile::latest_version`: fold over the directory entry
names, keeping the maximum parsed version, starting from 0. -/
def latest_version (entries : List OsName) (pfx : List Char) : Nat :=
  entries.foldl
    (fun m e => match parse_version e pfx with
      | some v => max m v
      | none => m) 0

/-- A path component as the crate distinguishes them: a normal name or
`..` (`Path::file_name` returns `None` exactly when the path does not end
in a normal component). -/
inductive PathComp
  | normal (name : OsName)
  | parentDir
  deriving DecidableEq, Repr

/-- A filesystem path, as its list of components. -/
abbrev RPath := List PathComp

/-- Model of `Path::file_name`: the final component when it is a normal
name, `None` otherwise (path ends in `..`, or is empty / a root). -/
def fileNameOf (p : RPath) : Option OsName :=
  match p.getLast? with
  | some (.normal n) => some n
  | _ => none

/-- Model of `AtomicFile` (src/atomic.rs): a directory and the filename
pattern version files carry.  The source field is named `prefix`, which is
reserved here, hence `pfx`. -/
structure AtomicFile where
  directory : RPath
  pfx : List Char
  deriving DecidableEq, Repr

/-- The non-empty ancestor paths of `p` (deepest last): everything
`fs::create_dir_all` brings into existence. -/
def ancestors (p : RPath) : List RPath :=
  (List.range p.length).map (fun k => p.take (k + 1))

/-- The world outside one store directory, for `AtomicFile::new`: the set
of directories that exist on disk. -/
structure World where
  dirs : List RPath
  deriving Repr

/-- Model of `fs::create_dir_all`: the path and all its missing parents now
exist. -/
def create_dir_all (w : World) (p : RPath) : World :=
  { dirs := ancestors p ++ w.dirs }

/-- Model of `AtomicFile::new`: `fs::create_dir_all` runs first; only then
is the final path component demanded (`InvalidInput` if the path ends in
`..` or has no components) and decoded (`InvalidInput` if not UTF-8).  On
success the version-file pattern is the decoded name followed by `'.'`. -/
def AtomicFile.new (w : World) (path : RPath) : World × Except ErrorKind AtomicFile :=
  let w1 := create_dir_all w path
  match fileNameOf path with
  | none => (w1, .error .invalidInput)
  | some (.nonUtf8 _) => (w1, .error .invalidInput)
  | some (.utf8 s) => (w1, .ok { directory := path, pfx := s ++ ['.'] })

/-- The name of version file `version` in the store directory: model of
`AtomicFile::path`, which joins the directory with
`format!("{prefix}{version}")` (the directory part is elided, see above). -/
def AtomicFile.path (af : AtomicFile) (version : Nat) : OsName :=
  .utf8 (af.pfx ++ natRepr version)

/-- The state of one store directory: directory entries (name, inode) and
the contents of each inode.  `nlink` of an inode is the number of entries
referring to it. -/
structure Fs where
  entries : List (OsName × Nat)
  data : List (Nat × Bytes)
  deriving DecidableEq, Repr

/-- The names present in the directory (what `read_dir` lists). -/
def fsNames (fs : Fs) : List OsName := fs.entries.map Prod.fst

/-- The inode a name refers to, if the name exists. -/
def lookupName (fs : Fs) (name : OsName) : Option Nat :=
  (fs.entries.find? (fun e => e.1 = name)).map Prod.snd

/-- The link count of inode `i`: how many directory entries refer to it. -/
def nlink (fs : Fs) (i : Nat) : Nat :=
  (fs.entries.filter (fun e => e.2 = i)).length

/-- Contents of inode `i` (a present file reads back its bytes). -/
def readData (fs : Fs) (i : Nat) : Bytes :=
  ((fs.data.find? (fun d => d.1 = i)).map Prod.snd).getD []

/-- Contents reachable under a name, if the name exists. -/
def readVersion (fs : Fs) (name : OsName) : Option Bytes :=
  (lookupName fs name).map (readData fs)

/-- Model of `ReadOnlyFile` (src/atomic.rs): the observed version and the
name of its file. -/
structure ReadOnlyFile where
  version : Nat
  path : OsName
  deriving DecidableEq, Repr

/-- Model of `TmpFile`: its unique name in the store directory and the
inode its open descriptor refers to. -/
structure TmpFile where
  path : OsName
  inode : Nat
  deriving DecidableEq, Repr

/-- Model of `AtomicFile::load`: take the maximum parsed version over the
directory listing and name its file. -/
def AtomicFile.load (af : AtomicFile) (fs : Fs) : ReadOnlyFile :=
  let version := latest_version (fsNames fs) af.pfx
  { version := version, path := af.path version }

/-- Model of `ReadOnlyFile::open`: version 0 means no content (`Ok(None)`),
otherwise open the version's file read-only (`ENOENT` if it is gone). -/
def ReadOnlyFile.openFile (f : ReadOnlyFile) (fs : Fs) : Except ErrorKind (Option Nat) :=
  if f.version ≠ 0 then
    match lookupName fs f.path with
    | some i => .ok (some i)
    | none => .error .notFound
  else .ok none

/-- `open` followed by `read_to_end`: the latest content, or `none` on an
empty store (the source name `open` is a Lean keyword, hence `openFile`). -/
def readRO (fs : Fs) (f : ReadOnlyFile) : Except ErrorKind (Option Bytes) :=
  match f.openFile fs with
  | .error e => .error e
  | .ok none => .ok none
  | .ok (some i) => .ok (some (readData fs i))

/-- Model of `nix::unistd::linkat(old, new)`: fails with `EEXIST` when the
target name exists; otherwise links the target name to the source's inode.
With `sp = true` the link is performed but `EEXIST` is reported anyway
(non-atomic filesystem, see the module comment). -/
def linkat (fs : Fs) (old target : OsName) (sp : Bool) : Fs × Option ErrorKind :=
  if target ∈ fsNames fs then (fs, some .alreadyExists)
  else
    match lookupName fs old with
    | none => (fs, some .notFound)
    | some i =>
      ({ fs with entries := (target, i) :: fs.entries },
       if sp then some .alreadyExists else none)

/-- Model of `AtomicFile::compare_and_swap` (src/atomic.rs): sync the temp
file (no-op here), `linkat` it to `<pfx><current.version + 1>`; on a link
error, `stat` the temp path (`ENOENT` if it is gone) and treat link count
exactly 2 as success, anything else as the original error; finally the
best-effort `set_permissions` is ignored.  The consuming drop of the temp
handle is `removeName`, applied by callers (see module comment). -/
def AtomicFile.compare_and_swap (af : AtomicFile) (fs : Fs) (current : ReadOnlyFile)
    (tmp : TmpFile) (sp : Bool) : Fs × Except ErrorKind Unit :=
  let newPath := af.path (current.version + 1)
  let lr := linkat fs tmp.path newPath sp
  match lr.2 with
  | none => (lr.1, .ok ())
  | some err =>
    match lookupName lr.1 tmp.path with
    | none => (lr.1, .error .notFound)
    | some i => if nlink lr.1 i ≠ 2 then (lr.1, .error err) else (lr.1, .ok ())

/-- Create the temp file's directory entry and write `data` into it:
`make_temp` followed by `write_all`/`flush`. -/
def writeTemp (fs : Fs) (t : TmpFile) (data : Bytes) : Fs :=
  { entries := (t.path, t.inode) :: fs.entries, data := (t.inode, data) :: fs.data }

/-- Unlink a name (first matching entry): `fs::remove_file`, as performed
by `TmpFile::drop`. -/
def removeName (fs : Fs) (name : OsName) : Fs :=
  { fs with entries := fs.entries.eraseP (fun e => decide (e.1 = name)) }

/-- One iteration of the `modify` loop body (src/lib.rs): load, read the
latest content (empty bytes when absent), apply `op`, write a fresh temp
file and `compare_and_swap`, then drop the temp handle.  `t` is the temp
file `make_temp` produces this iteration; `mid` is the interference other
writers apply to the directory between our read and our publish attempt
(`id` when the caller runs alone). -/
def modifyBody (af : AtomicFile) (op : Bytes → Bytes) (t : TmpFile) (sp : Bool)
    (mid : Fs → Fs) (fs : Fs) : Fs × Except ErrorKind Unit :=
  let latest := af.load fs
  match readRO fs latest with
  | .error e => (fs, .error e)
  | .ok ob =>
    let fs1 := writeTemp (mid fs) t (op (ob.getD []))
    let cas := af.compare_and_swap fs1 latest t sp
    (removeName cas.1 t.path, cas.2)

/-- The `modify` retry loop (src/lib.rs), fuelled: `AlreadyExists` from
`compare_and_swap` restarts the loop (the source retries without bound;
`none` here means the fuel ran out while still retrying), success returns,
any other error is returned as-is.  Also returns the index after the last
iteration run, so that the number of attempts is observable. -/
def modifyLoop (af : AtomicFile) (op : Bytes → Bytes) (ts : Nat → TmpFile) (sp : Bool)
    (mids : Nat → Fs → Fs) : Nat → Nat → Fs → Fs × Option (Except ErrorKind Unit) × Nat
  | 0, i, fs => (fs, none, i)
  | fuel + 1, i, fs =>
    let r := modifyBody af op (ts i) sp (mids i) fs
    match r.2 with
    | .ok () => (r.1, some (.ok ()), i + 1)
    | .error e =>
      if e = .alreadyExists then modifyLoop af op ts sp mids fuel (i + 1) r.1
      else (r.1, some (.error e), i + 1)

/-- A `serde_json` codec for a type `T`: `enc` models `to_writer` on a `T`
value, `dec` models `from_reader` (`none` is a decode failure, surfaced by
the code as an `InvalidData` I/O error). -/
structure JsonCodec (T : Type) where
  enc : T → Bytes
  dec : Bytes → Option T

/-- The JSON bytes of `null`. -/
def nullBytes : Bytes := "null".data

/-- Serialization of the `Option<T>` value `modify_json` writes back,
following `serde_json`'s representation: `None` serializes as `null`,
`Some t` serializes exactly as `t`. -/
def encOpt {T : Type} (c : JsonCodec T) : Option T → Bytes
  | none => nullBytes
  | some t => c.enc t

/-- One iteration of the `modify_json` loop body (src/lib.rs): load; when a
version exists decode its bytes as a plain `T` and wrap in `Some` (decode
failure is an `InvalidData` error), absence maps to `None`; apply `op`;
serialize the resulting `Option<T>`, write it to a fresh temp file and
`compare_and_swap`; drop the temp handle. -/
def modifyJsonBody {T : Type} (af : AtomicFile) (c : JsonCodec T)
    (op : Option T → Option T) (t : TmpFile) (sp : Bool) (mid : Fs → Fs) (fs : Fs) :
    Fs × Except ErrorKind Unit :=
  let latest := af.load fs
  let valE : Except ErrorKind (Option T) :=
    match readRO fs latest with
    | .error e => .error e
    | .ok none => .ok none
    | .ok (some b) =>
      match c.dec b with
      | none => .error .invalidData
      | some v => .ok (some v)
  match valE with
  | .error e => (fs, .error e)
  | .ok val =>
    let fs1 := writeTemp (mid fs) t (encOpt c (op val))
    let cas := af.compare_and_swap fs1 latest t sp
    (removeName cas.1 t.path, cas.2)

/-- The `modify_json` retry loop (src/lib.rs), fuelled exactly like
`modifyLoop`. -/
def modifyJsonLoop {T : Type} (af : AtomicFile) (c : JsonCodec T)
    (op : Option T → Option T) (ts : Nat → TmpFile) (sp : Bool) (mids : Nat → Fs → Fs) :
    Nat → Nat → Fs → Fs × Option (Except ErrorKind Unit) × Nat
  | 0, i, fs => (fs, none, i)
  | fuel + 1, i, fs =>
    let r := modifyJsonBody af c op (ts i) sp (mids i) fs
    match r.2 with
    | .ok () => (r.1, some (.ok ()), i + 1)
    | .error e =>
      if e = .alreadyExists then modifyJsonLoop af c op ts sp mids fuel (i + 1) r.1
      else (r.1, some (.error e), i + 1)

/-! ### The counter demo (src/json.rs) -/

/-- The demo's structured value: `struct Foo { count: i32 }`.  The count is
modelled as `Int`; every value reachable in the scenarios considered stays
far below `i32::MAX`. -/
structure Foo where
  count : Int
  deriving DecidableEq, Repr

/-- Decimal rendering of an `Int` (what `serde_json` emits for an `i32`). -/
def intRepr (i : Int) : List Char :=
  if i < 0 then '-' :: natRepr i.natAbs else natRepr i.natAbs

/-- The opening brace character, written via its code point because a brace
is significant syntax inside string literals here. -/
def lbrace : Char := Char.ofNat 123

/-- The closing brace character. -/
def rbrace : Char := Char.ofNat 125

/-- The double-quote character. -/
def quoteC : Char := Char.ofNat 34

/-- The fixed head of `Foo`'s JSON encoding, through the colon. -/
def fooOpen : Bytes := lbrace :: quoteC :: "count".data ++ [quoteC, ':']

/-- `serde_json::to_writer` on a `Foo`. -/
def encFoo (f : Foo) : Bytes := fooOpen ++ intRepr f.count ++ [rbrace]

/-- A JSON unsigned integer literal: non-empty, all digits, no redundant
leading zero. -/
def parseJsonNat (t : List Char) : Option Nat :=
  if t ≠ [] ∧ t.all (fun c => c.isDigit) ∧ (t.head? = some '0' → t = ['0']) then
    some (parseVal t)
  else none

/-- A JSON integer within `i32` range (what decoding the `count` field
accepts).  Modelled from `serde_json`'s number grammar restricted to the
forms the encoder above can emit. -/
def parseJsonInt (cs : List Char) : Option Int :=
  match cs with
  | '-' :: t =>
    match parseJsonNat t with
    | some n => if 0 < n ∧ n ≤ 2 ^ 31 then some (-(n : Int)) else none
    | none => none
  | t =>
    match parseJsonNat t with
    | some n => if n ≤ 2 ^ 31 - 1 then some (n : Int) else none
    | none => none

/-- `serde_json::from_reader::<Foo>` restricted to the exact textual shape
`encFoo` emits; anything else (in particular `null`) fails to decode. -/
def decFoo (b : Bytes) : Option Foo :=
  if sw b fooOpen then
    let rest := b.drop fooOpen.length
    match rest.getLast? with
    | some c =>
      if c = rbrace then (parseJsonInt rest.dropLast).map Foo.mk else none
    | none => none
  else none

/-- The demo's codec for `Foo`. -/
def fooCodec : JsonCodec Foo := { enc := encFoo, dec := decFoo }

/-- The demo's transform (src/json.rs): increment a present counter, and
replace an absent value by `Foo::default()`, whose count is 0. -/
def demoOp : Option Foo → Option Foo
  | some f => some { count := f.count + 1 }
  | none => some { count := 0 }

/-! ### Concurrent callers of the update loop

Any number of update-loop callers race against one directory.  Each caller
alternates a `load` step (load the latest snapshot and read its content —
version files are write-once, so reading at load time is exact) and a `cas`
step (apply its read-to-write transform, write a fresh temp file made by
`make_temp`, `compare_and_swap`, drop the temp handle; then return on
success, go back to `load` on `AlreadyExists`, and abort with the error
otherwise — the match in `modify`/`modify_json`).  Events interleave these
steps arbitrarily, which covers every schedule of threads, processes or
machines sharing the directory. -/

/-- The read-to-write transform a caller applies each iteration: from the
content it read (`none` on an empty store) to the bytes it publishes, or an
error that aborts its loop.  `modify` and `modify_json` induce `rawTr` and
`jsonTr` below. -/
abbrev Transform := Option Bytes → Except ErrorKind Bytes

/-- The transform induced by `modify op`: absent content reads as empty
bytes, and `op` never fails. -/
def rawTr (op : Bytes → Bytes) : Transform :=
  fun ob => .ok (op (ob.getD []))

/-- The transform induced by `modify_json op`: decode a present value as a
plain `T` (failure is fatal `InvalidData`), apply `op` to the `Option`, and
serialize the resulting `Option` back. -/
def jsonTr {T : Type} (c : JsonCodec T) (op : Option T → Option T) : Transform
  | none => .ok (encOpt c (op none))
  | some b =>
    match c.dec b with
    | none => .error .invalidData
    | some v => .ok (encOpt c (op (some v)))

/-- The unique name `mkstemp` invents for temp file number `i`: distinct
for distinct `i`, and containing no `'.'`, as the real six-character
alphanumeric replacement of the `XXXXXX` template never contains one —
while every version-file pattern ends in `'.'`. -/
def tempName (i : Nat) : OsName := .utf8 (List.replicate (i + 1) 'X')

/-- `mkstemp`'s fresh-name choice: the first index at or after `fresh`
whose name is unused.  Searching `entries.length + 1` candidates always
finds one (the candidates are pairwise distinct). -/
def pickTemp (fs : Fs) (fresh : Nat) : Nat :=
  match (List.range (fs.entries.length + 1)).find?
      (fun j => decide (tempName (fresh + j) ∉ fsNames fs)) with
  | some j => fresh + j
  | none => fresh + fs.entries.length + 1

/-- A scheduling event: caller `c` performs its load step, or its
compare-and-swap step (`sp` selects the filesystem's link-reporting
behaviour for that attempt, see `linkat`). -/
inductive Event
  | load (c : Nat)
  | cas (c : Nat) (sp : Bool)
  deriving DecidableEq, Repr

/-- Where one caller stands in its update loop. -/
inductive CallerState
  | idle
  | loaded (snap : Nat) (buf : Option Bytes)
  | finishedOk
  | finishedErr (e : ErrorKind)
  deriving DecidableEq, Repr

/-- The whole system: the directory, each caller's loop position, the
versions successfully published so far in publish order, and the inode /
temp-name freshness counter. -/
structure SysState where
  fs : Fs
  callers : List CallerState
  published : List Nat
  fresh : Nat
  deriving Repr

/-- How many callers have returned successfully. -/
def countOk (l : List CallerState) : Nat :=
  (l.filter (fun st => decide (st = .finishedOk))).length

/-- One scheduling step.  A `load` event runs `AtomicFile::load` plus the
snapshot read; a `cas` event runs the rest of the loop body and the
`match` on the `compare_and_swap` result from `modify`/`modify_json`. -/
def step (af : AtomicFile) (tr : Transform) (s : SysState) : Event → SysState
  | .load c =>
    match s.callers[c]? with
    | some .idle =>
      let rof := af.load s.fs
      match readRO s.fs rof with
      | .ok ob => { s with callers := s.callers.set c (.loaded rof.version ob) }
      | .error e => { s with callers := s.callers.set c (.finishedErr e) }
    | _ => s
  | .cas c sp =>
    match s.callers[c]? with
    | some (.loaded k ob) =>
      match tr ob with
      | .error e => { s with callers := s.callers.set c (.finishedErr e) }
      | .ok data =>
        let idx := pickTemp s.fs s.fresh
        let t : TmpFile := { path := tempName idx, inode := idx }
        let fs1 := writeTemp s.fs t data
        let cas := af.compare_and_swap fs1 { version := k, path := af.path k } t sp
        let fs2 := removeName cas.1 t.path
        match cas.2 with
        | .ok () =>
          { fs := fs2, callers := s.callers.set c .finishedOk,
            published := s.published ++ [k + 1], fresh := idx + 1 }
        | .error e =>
          if e = .alreadyExists then
            { fs := fs2, callers := s.callers.set c .idle,
              published := s.published, fresh := idx + 1 }
          else
            { fs := fs2, callers := s.callers.set c (.finishedErr e),
              published := s.published, fresh := idx + 1 }
    | _ => s

/-- Run a schedule. -/
def runEvents (af : AtomicFile) (tr : Transform) (es : List Event) (s : SysState) : SysState :=
  es.foldl (step af tr) s

/-- A strict upper bound on the inodes in use. -/
def freshOf (fs : Fs) : Nat := fs.entries.foldr (fun e m => max (e.2 + 1) m) 0

/-- The system before any caller has started: `N` idle callers over the
directory `fs`. -/
def initSys (fs : Fs) (N : Nat) : SysState :=
  { fs := fs, callers := List.replicate N .idle, published := [], fresh := freshOf fs }

/-- The contents of the chain of versions the callers build on top of the
initial store: `chainFrom tr seed j` is the content version `n0 + j` must
carry when every publisher runs the transform `tr` and the initial store's
latest version `n0` carried `seed` (`none` for an empty store).  Step `j+1`
is `tr` of step `j`'s content (`none` if `tr` fails there, in which case no
such version is ever published). -/
def chainFrom (tr : Transform) (seed : Option Bytes) : Nat → Option Bytes
  | 0 => seed
  | j + 1 =>
    match tr (chainFrom tr seed j) with
    | .ok b => some b
    | .error _ => none

/-- A well-formed store directory at current version `cur`: version files
`1..cur` all exist, no entry parses to a version above `cur`, and the
directory has no duplicate names. -/
def StoreOk (af : AtomicFile) (fs : Fs) (cur : Nat) : Prop :=
  (∀ m ∈ List.range' 1 cur, af.path m ∈ fsNames fs) ∧
  (∀ nm ∈ fsNames fs, (parse_version nm af.pfx).getD 0 ≤ cur) ∧
  (fsNames fs).Nodup

/-- The inductive invariant of the concurrent system over an initial store
at version `n0` whose latest content was `seed`: the store is well-formed
at the version reached so far, the published versions are exactly
`n0+1, n0+2, ...` in order, one per caller that returned successfully,
every loaded snapshot is between `n0` and the current version and carries
the content of its version, every version published during the run carries
the transform-chain content, the initial latest version still carries
`seed`, and all inodes are below the freshness counter. -/
def Inv (af : AtomicFile) (tr : Transform) (seed : Option Bytes) (n0 N : Nat)
    (s : SysState) : Prop :=
  StoreOk af s.fs (n0 + s.published.length) ∧
  s.published = List.range' (n0 + 1) s.published.length ∧
  s.callers.length = N ∧
  s.published.length = countOk s.callers ∧
  (∀ (c : Nat) k ob, s.callers[c]? = some (CallerState.loaded k ob) →
    n0 ≤ k ∧ k ≤ n0 + s.published.length ∧ ob = chainFrom tr seed (k - n0)) ∧
  (∀ j ∈ List.range' 1 s.published.length,
    readVersion s.fs (af.path (n0 + j)) = chainFrom tr seed j) ∧
  (1 ≤ n0 → ∃ b, seed = some b ∧ readVersion s.fs (af.path n0) = some b) ∧
  (n0 = 0 → seed = none) ∧
  (∀ e ∈ s.fs.entries, e.2 < s.fresh)

/-- The store the json demo opens (`AtomicFile::new("file.json")`). -/
def demoAf : AtomicFile :=
  { directory := [.normal (.utf8 ("file.json".data))], pfx := "file.json".data ++ ['.'] }

/-- A fresh, empty store directory. -/
def emptyFs : Fs := { entries := [], data := [] }

/-- The transform the two demo threads run through `modify_json`. -/
def demoTr : Transform := jsonTr fooCodec demoOp

/-!
## Theorems

First the supporting lemmas: decimal rendering round-trips through
`parse_version`, `latest_version` computes the maximum parsed version, and
the directory-model operations behave as stated.  The claim theorems
follow, each under its claim identifier.
-/

theorem natReprAux_congr (n : Nat) : ∀ fuel fuel', n < fuel → n < fuel' →
    natReprAux fuel n = natReprAux fuel' n := by
  induction n using Nat.strong_induction_on with
  | _ n ih =>
    intro fuel fuel' h h'
    match fuel, fuel' with
    | f + 1, f' + 1 =>
      simp only [natReprAux]
      split
      · rfl
      · next h10 =>
        have hlt : n / 10 < n := Nat.div_lt_self (by omega) (by omega)
        rw [ih (n / 10) hlt f f' (by omega) (by omega)]

theorem natRepr_eq (n : Nat) : natRepr n =
    if n < 10 then [digitChar n] else natRepr (n / 10) ++ [digitChar (n % 10)] := by
  show natReprAux (n + 1) n = _
  simp only [natReprAux]
  split
  · rfl
  · next h10 =>
    have hlt : n / 10 < n := Nat.div_lt_self (by omega) (by omega)
    rw [natReprAux_congr (n / 10) n (n / 10 + 1) (by omega) (by omega)]
    rfl

theorem natRepr_ne_nil (n : Nat) : natRepr n ≠ [] := by
  rw [natRepr_eq]
  split <;> simp

theorem digitChar_isDigit {d : Nat} (h : d < 10) : (digitChar d).isDigit = true := by
  interval_cases d <;> decide

theorem digitChar_toNat {d : Nat} (h : d < 10) : (digitChar d).toNat = 48 + d := by
  interval_cases d <;> decide

theorem natRepr_all_digit (n : Nat) : ∀ c ∈ natRepr n, c.isDigit = true := by
  induction n using Nat.strong_induction_on with
  | _ n ih =>
    rw [natRepr_eq]
    split
    · next h => intro c hc; simp at hc; subst hc; exact digitChar_isDigit h
    · next h =>
      intro c hc
      rcases List.mem_append.mp hc with h1 | h2
      · exact ih (n / 10) (Nat.div_lt_self (by omega) (by omega)) c h1
      · simp at h2; subst h2; exact digitChar_isDigit (Nat.mod_lt n (by omega))

theorem parseVal_concat (t : List Char) (c : Char) :
    parseVal (t ++ [c]) = 10 * parseVal t + (c.toNat - 48) := by
  simp [parseVal, List.foldl_append, Nat.mul_comm]

theorem parseVal_natRepr (n : Nat) : parseVal (natRepr n) = n := by
  induction n using Nat.strong_induction_on with
  | _ n ih =>
    rw [natRepr_eq]
    split
    · next h =>
      simp [parseVal, digitChar_toNat h]
    · next h =>
      rw [parseVal_concat, ih (n / 10) (Nat.div_lt_self (by omega) (by omega)),
        digitChar_toNat (Nat.mod_lt n (by omega))]
      omega

theorem parseUsize_not_plus {c : Char} {t : List Char} (hc : c ≠ '+') :
    parseUsize (c :: t) = parseDigits (c :: t) := by
  unfold parseUsize
  split
  · next heq => cases heq; exact absurd rfl hc
  · rfl

theorem parseUsize_natRepr {n : Nat} (h : n ≤ usizeMax) :
    parseUsize (natRepr n) = some n := by
  have hd := natRepr_all_digit n
  rcases hrep : natRepr n with _ | ⟨c, t⟩
  · exact absurd hrep (natRepr_ne_nil n)
  · have hc : c ≠ '+' := by
      intro hplus
      have : c.isDigit = true := hd c (by rw [hrep]; exact List.mem_cons_self _ _)
      rw [hplus] at this
      exact absurd this (by decide)
    rw [parseUsize_not_plus hc, parseDigits, if_pos, if_pos]
    · rw [← hrep, parseVal_natRepr]
    · rw [← hrep, parseVal_natRepr]; exact h
    · constructor
      · simp
      · rw [List.all_eq_true, ← hrep]; exact hd

theorem sw_append (p t : List Char) : sw (p ++ t) p = true := by
  induction p with
  | nil => cases t <;> rfl
  | cons c cs ih => simp [sw, ih]

theorem sw_exists {s p : List Char} (h : sw s p = true) : ∃ t, s = p ++ t := by
  induction p generalizing s with
  | nil => exact ⟨s, rfl⟩
  | cons c cs ih =>
    cases s with
    | nil => simp [sw] at h
    | cons a as =>
      simp only [sw, Bool.and_eq_true, decide_eq_true_eq] at h
      obtain ⟨t, ht⟩ := ih h.2
      exact ⟨t, by rw [ht, h.1]; rfl⟩

theorem mem_of_sw {s p : List Char} {c : Char} (h : sw s p = true) (hc : c ∈ p) : c ∈ s := by
  obtain ⟨t, ht⟩ := sw_exists h
  rw [ht]
  exact List.mem_append_left t hc

theorem parse_version_path {af : AtomicFile} {m : Nat} (h : m ≤ usizeMax) :
    parse_version (af.path m) af.pfx = some m := by
  simp only [AtomicFile.path, parse_version, sw_append, if_pos, List.drop_left]
  exact parseUsize_natRepr h

theorem path_inj {af : AtomicFile} {m m' : Nat} (hm : m ≤ usizeMax) (hm' : m' ≤ usizeMax)
    (h : af.path m = af.path m') : m = m' := by
  have h1 := @parse_version_path af m hm
  rw [h, parse_version_path hm'] at h1
  exact (Option.some_inj.mp h1).symm

theorem parse_tempName {pfx : List Char} (hdot : '.' ∈ pfx) (i : Nat) :
    parse_version (tempName i) pfx = none := by
  simp only [tempName, parse_version]
  rw [if_neg]
  intro hsw
  have := mem_of_sw hsw hdot
  have := List.eq_of_mem_replicate this
  exact absurd this (by decide)

theorem tempName_inj {i j : Nat} (h : tempName i = tempName j) : i = j := by
  simp only [tempName, OsName.utf8.injEq] at h
  have := congrArg List.length h
  simpa using this

/-! Lemmas about the `latest_version` fold. -/

theorem latest_foldl_le (pfx : List Char) (l : List OsName) (a : Nat) :
    a ≤ l.foldl (fun m e => match parse_version e pfx with
      | some v => max m v
      | none => m) a := by
  induction l generalizing a with
  | nil => exact Nat.le_refl a
  | cons e l ih =>
    simp only [List.foldl_cons]
    have h1 : a ≤ (match parse_version e pfx with
        | some v => max a v
        | none => a) := by
      rcases hp : parse_version e pfx with _ | v <;> simp [hp, Nat.le_max_left]
    exact Nat.le_trans h1 (ih _)

theorem latest_foldl_ge {pfx : List Char} {l : List OsName} {nm : OsName} {v : Nat}
    (hm : nm ∈ l) (hv : parse_version nm pfx = some v) (a : Nat) :
    v ≤ l.foldl (fun m e => match parse_version e pfx with
      | some v => max m v
      | none => m) a := by
  induction l generalizing a with
  | nil => cases hm
  | cons e l ih =>
    rcases List.mem_cons.mp hm with rfl | hm'
    · simp only [List.foldl_cons, hv]
      exact Nat.le_trans (Nat.le_max_right a v) (latest_foldl_le pfx l _)
    · simp only [List.foldl_cons]
      exact ih hm' _

theorem latest_foldl_mem (pfx : List Char) (l : List OsName) (a : Nat) :
    l.foldl (fun m e => match parse_version e pfx with
      | some v => max m v
      | none => m) a = a ∨
    ∃ nm ∈ l, parse_version nm pfx =
      some (l.foldl (fun m e => match parse_version e pfx with
        | some v => max m v
        | none => m) a) := by
  induction l generalizing a with
  | nil => exact Or.inl rfl
  | cons e l ih =>
    rcases hp : parse_version e pfx with _ | v
    · rcases ih a with h | ⟨nm, hnm, h⟩
      · exact Or.inl (by simpa [hp] using h)
      · exact Or.inr ⟨nm, List.mem_cons_of_mem e hnm, by simpa [hp] using h⟩
    · rcases ih (max a v) with h | ⟨nm, hnm, h⟩
      · simp only [List.foldl_cons, hp, h]
        rcases max_choice a v with hm | hm
        · exact Or.inl hm
        · exact Or.inr ⟨e, List.mem_cons_self e l, by rw [hp, hm]⟩
      · exact Or.inr ⟨nm, List.mem_cons_of_mem e hnm, by simpa [hp] using h⟩

theorem latest_version_le {pfx : List Char} {l : List OsName} {cur : Nat}
    (h : ∀ nm ∈ l, (parse_version nm pfx).getD 0 ≤ cur) :
    latest_version l pfx ≤ cur := by
  rcases latest_foldl_mem pfx l 0 with h0 | ⟨nm, hnm, hp⟩
  · rw [latest_version, h0]; exact Nat.zero_le cur
  · have := h nm hnm
    rw [hp] at this
    simpa [latest_version] using this

theorem latest_version_ge {pfx : List Char} {l : List OsName} {nm : OsName} {v : Nat}
    (hm : nm ∈ l) (hv : parse_version nm pfx = some v) : v ≤ latest_version l pfx :=
  latest_foldl_ge hm hv 0

theorem latest_version_zero {pfx : List Char} {l : List OsName}
    (h : ∀ nm ∈ l, parse_version nm pfx = none) : latest_version l pfx = 0 := by
  rcases latest_foldl_mem pfx l 0 with h0 | ⟨nm, hnm, hp⟩
  · exact h0
  · rw [h nm hnm] at hp; cases hp

/-- Claim C6: `load` parses each directory entry name against
`<pattern><integer>`; the result is the maximum parsed version (0 when no
entry parses), every parsed version bounds below it, some entry attains a
non-zero result, non-matching entries (wrong pattern, or a suffix that is
not a `usize`) are ignored and never affect the result. -/
theorem load_is_max_parsed_version (pfx : List Char) (entries : List OsName) :
    (∀ nm ∈ entries, ∀ v, parse_version nm pfx = some v → v ≤ latest_version entries pfx) ∧
    (latest_version entries pfx = 0 ∨
      ∃ nm ∈ entries, parse_version nm pfx = some (latest_version entries pfx)) ∧
    (∀ nm, parse_version nm pfx = none →
      latest_version (nm :: entries) pfx = latest_version entries pfx) ∧
    ((∀ nm ∈ entries, parse_version nm pfx = none) → latest_version entries pfx = 0) ∧
    (∀ s, sw s pfx = false → parse_version (.utf8 s) pfx = none) ∧
    (∀ s, parseUsize (s.drop pfx.length) = none → parse_version (.utf8 s) pfx = none) := by
  refine ⟨fun nm hm v hv => latest_version_ge hm hv, latest_foldl_mem pfx entries 0,
    fun nm hp => ?_, latest_version_zero, fun s hs => ?_, fun s hs => ?_⟩
  · simp [latest_version, hp]
  · simp [parse_version, hs]
  · simp only [parse_version, hs]
    split <;> rfl

/-- Claim C8: on a store directory containing no version files (nothing
parses against the pattern), `load` returns the sentinel version 0, and
`open` on that snapshot returns no content (`Ok(None)`), not an error. -/
theorem fresh_store_loads_version_zero (af : AtomicFile) (fs : Fs)
    (h : ∀ nm ∈ fsNames fs, parse_version nm af.pfx = none) :
    (af.load fs).version = 0 ∧ (af.load fs).openFile fs = .ok none := by
  have hz : latest_version (fsNames fs) af.pfx = 0 := latest_version_zero h
  constructor
  · exact hz
  · simp [ReadOnlyFile.openFile, AtomicFile.load, hz]

/-! Lemmas about the directory model. -/

theorem lookupName_of_mem {fs : Fs} {nm : OsName} {i : Nat}
    (h : (nm, i) ∈ fs.entries) (hnd : (fsNames fs).Nodup) : lookupName fs nm = some i := by
  rcases fs with ⟨es, d⟩
  simp only [lookupName, fsNames] at *
  induction es with
  | nil => cases h
  | cons e es ih =>
    rcases e with ⟨n', i'⟩
    simp only [List.map_cons, List.nodup_cons] at hnd
    by_cases hn : n' = nm
    · rw [List.find?_cons_of_pos _ (by simp [hn])]
      rcases List.mem_cons.mp h with he | he
      · cases he; rfl
      · exact absurd (hn ▸ List.mem_map_of_mem Prod.fst he) hnd.1
    · rw [List.find?_cons_of_neg _ (by simp [hn])]
      rcases List.mem_cons.mp h with he | he
      · cases he; exact absurd rfl hn
      · exact ih he hnd.2

theorem lookupName_not_mem {fs : Fs} {nm : OsName} (h : nm ∉ fsNames fs) :
    lookupName fs nm = none := by
  rw [lookupName, List.find?_eq_none.mpr, Option.map_none']
  intro e he hc
  simp only [decide_eq_true_eq] at hc
  exact h (hc ▸ List.mem_map_of_mem Prod.fst he)

theorem lookupName_cons_ne {es : List (OsName × Nat)} {d : List (Nat × Bytes)}
    {nm n' : OsName} {i' : Nat} (hne : n' ≠ nm) :
    lookupName ⟨(n', i') :: es, d⟩ nm = lookupName ⟨es, d⟩ nm := by
  simp only [lookupName]
  rw [List.find?_cons_of_neg _ (by simp [hne])]

theorem lookupName_cons_self {es : List (OsName × Nat)} {d : List (Nat × Bytes)}
    {nm : OsName} {i : Nat} :
    lookupName ⟨(nm, i) :: es, d⟩ nm = some i := by
  simp only [lookupName]
  rw [List.find?_cons_of_pos _ (by simp)]
  rfl

theorem nlink_cons {es : List (OsName × Nat)} {d : List (Nat × Bytes)}
    {n' : OsName} {i' j : Nat} :
    nlink ⟨(n', i') :: es, d⟩ j = (if i' = j then 1 else 0) + nlink ⟨es, d⟩ j := by
  simp only [nlink, List.filter_cons]
  by_cases h : i' = j <;> simp [h, Nat.add_comm]

theorem nlink_zero {fs : Fs} {j : Nat} (h : ∀ e ∈ fs.entries, e.2 ≠ j) : nlink fs j = 0 := by
  simp only [nlink, List.length_eq_zero]
  rw [List.filter_eq_nil_iff]
  intro e he
  simp [h e he]

theorem readData_cons {es : List (OsName × Nat)} {ds : List (Nat × Bytes)}
    {i j : Nat} {b : Bytes} :
    readData ⟨es, (i, b) :: ds⟩ j = if i = j then b else readData ⟨es, ds⟩ j := by
  simp only [readData]
  by_cases h : i = j
  · rw [List.find?_cons_of_pos _ (by simp [h])]; simp [h]
  · rw [List.find?_cons_of_neg _ (by simp [h]), if_neg h]

theorem linkat_mem {fs : Fs} {old target : OsName} {sp : Bool} (h : target ∈ fsNames fs) :
    linkat fs old target sp = (fs, some .alreadyExists) := by
  simp [linkat, h]

theorem linkat_not_mem {fs : Fs} {old target : OsName} {sp : Bool} {i : Nat}
    (h : target ∉ fsNames fs) (hl : lookupName fs old = some i) :
    linkat fs old target sp =
      ({ fs with entries := (target, i) :: fs.entries },
        if sp then some ErrorKind.alreadyExists else none) := by
  simp [linkat, h, hl]

/-- `compare_and_swap` against a directory that already holds the target
version name: the link fails, the temp handle still has one link, and the
conflict is reported with the directory unchanged. -/
theorem cas_conflict {af : AtomicFile} {fs : Fs} {current : ReadOnlyFile} {t : TmpFile}
    {sp : Bool}
    (htarget : af.path (current.version + 1) ∈ fsNames fs)
    (htmp : (t.path, t.inode) ∈ fs.entries)
    (hnl : nlink fs t.inode = 1)
    (hnd : (fsNames fs).Nodup) :
    af.compare_and_swap fs current t sp = (fs, .error .alreadyExists) := by
  have hl := lookupName_of_mem htmp hnd
  simp [AtomicFile.compare_and_swap, linkat_mem htarget, hl, hnl]

/-- `compare_and_swap` against a directory in which the target version name
is free: the link is created, and even when the filesystem spuriously
reports `EEXIST` the link count of 2 turns the outcome into success. -/
theorem cas_success {af : AtomicFile} {fs : Fs} {current : ReadOnlyFile} {t : TmpFile}
    {sp : Bool}
    (htarget : af.path (current.version + 1) ∉ fsNames fs)
    (htmp : (t.path, t.inode) ∈ fs.entries)
    (hnl : nlink fs t.inode = 1)
    (hnd : (fsNames fs).Nodup) :
    af.compare_and_swap fs current t sp =
      ({ fs with entries := (af.path (current.version + 1), t.inode) :: fs.entries },
        .ok ()) := by
  have hl := lookupName_of_mem htmp hnd
  have hne : af.path (current.version + 1) ≠ t.path := by
    intro h
    exact htarget (h ▸ List.mem_map_of_mem Prod.fst htmp)
  cases sp with
  | false => simp [AtomicFile.compare_and_swap, linkat_not_mem htarget hl]
  | true =>
    have hlook : lookupName { fs with entries := (af.path (current.version + 1), t.inode)
        :: fs.entries } t.path = some t.inode := by
      rcases fs with ⟨es, d⟩
      rw [lookupName_cons_ne hne]
      exact hl
    have hnl2 : nlink { fs with entries := (af.path (current.version + 1), t.inode)
        :: fs.entries } t.inode = 2 := by
      rcases fs with ⟨es, d⟩
      rw [nlink_cons, if_pos rfl]
      simp only [nlink] at hnl
      simp [nlink, hnl]
    simp [AtomicFile.compare_and_swap, linkat_not_mem htarget hl, hlook, hnl2]

/-- Claim C2: `compare_and_swap` with a stale snapshot of version `K` — a
version file `<pattern><K+1>` already exists — returns the Conflict error
(`AlreadyExists`), never success; the directory, and in particular the
content reachable under the already-published name `<pattern><K+1>`, is
unchanged.  Hypotheses: the temp file is a directory entry whose inode has
link count 1 (it was freshly created by `make_temp`), and the directory
has no duplicate names. -/
theorem stale_snapshot_conflicts (af : AtomicFile) (fs : Fs) (K : Nat) (t : TmpFile)
    (sp : Bool)
    (hstale : af.path (K + 1) ∈ fsNames fs)
    (htmp : (t.path, t.inode) ∈ fs.entries)
    (hnl : nlink fs t.inode = 1)
    (hnd : (fsNames fs).Nodup) :
    af.compare_and_swap fs { version := K, path := af.path K } t sp
      = (fs, .error .alreadyExists) ∧
    readVersion (af.compare_and_swap fs { version := K, path := af.path K } t sp).1
        (af.path (K + 1))
      = readVersion fs (af.path (K + 1)) := by
  have h := @cas_conflict af fs { version := K, path := af.path K } t sp
    hstale htmp hnl hnd
  exact ⟨h, by rw [h]⟩

/-- Claim C3: when link creation inside `compare_and_swap` reports "already
exists", the temp file's link count decides the outcome: count exactly 2
means the link actually happened and the operation returns `Ok`; any other
count is a genuine conflict, reported with the original error.  Clause (1)
is the literal branch; clauses (2) and (3) realise both sides: a genuinely
claimed target leaves the count at 1 and yields Conflict, while a spurious
`EEXIST` on a free target leaves the count at 2 and yields success. -/
theorem link_count_disambiguation (af : AtomicFile) (fs : Fs) (K : Nat) (t : TmpFile)
    (htmp : (t.path, t.inode) ∈ fs.entries)
    (hnl : nlink fs t.inode = 1)
    (hnd : (fsNames fs).Nodup) :
    (∀ (sp : Bool) (fs1 : Fs) (e : ErrorKind) (i : Nat),
      linkat fs t.path (af.path (K + 1)) sp = (fs1, some e) →
      lookupName fs1 t.path = some i →
      af.compare_and_swap fs { version := K, path := af.path K } t sp =
        if nlink fs1 i = 2 then (fs1, .ok ()) else (fs1, .error e)) ∧
    (af.path (K + 1) ∈ fsNames fs → ∀ sp,
      (linkat fs t.path (af.path (K + 1)) sp).2 = some .alreadyExists ∧
      nlink (linkat fs t.path (af.path (K + 1)) sp).1 t.inode = 1 ∧
      af.compare_and_swap fs { version := K, path := af.path K } t sp
        = (fs, .error .alreadyExists)) ∧
    (af.path (K + 1) ∉ fsNames fs →
      (linkat fs t.path (af.path (K + 1)) true).2 = some .alreadyExists ∧
      nlink (linkat fs t.path (af.path (K + 1)) true).1 t.inode = 2 ∧
      af.compare_and_swap fs { version := K, path := af.path K } t true =
        ({ fs with entries := (af.path (K + 1), t.inode) :: fs.entries }, .ok ())) := by
  refine ⟨fun sp fs1 e i hlink hlook => ?_, fun hmem sp => ?_, fun hmem => ?_⟩
  · simp only [AtomicFile.compare_and_swap, hlink, hlook]
    by_cases h2 : nlink fs1 i = 2 <;> simp [h2]
  · refine ⟨by rw [linkat_mem hmem], by rw [linkat_mem hmem]; exact hnl,
      cas_conflict hmem htmp hnl hnd⟩
  · have hl := lookupName_of_mem htmp hnd
    refine ⟨by simp [linkat_not_mem hmem hl], ?_,
      @cas_success af fs { version := K, path := af.path K } t true hmem htmp hnl hnd⟩
    rw [linkat_not_mem hmem hl]
    rcases fs with ⟨es, d⟩
    rw [nlink_cons, if_pos rfl]
    simp only [nlink] at hnl
    simp [nlink, hnl]

/-- Claim C10: `AtomicFile::new` runs `fs::create_dir_all` before
validating the path, so for every path without a usable final component —
it ends in `..`, or its final name is not valid UTF-8 — the directories
along the path are created on disk even though `new` returns
`InvalidInput`: the construction is not atomic on error. -/
theorem new_creates_dirs_before_validating (w : World) (p : RPath)
    (h : fileNameOf p = none ∨ ∃ id, fileNameOf p = some (.nonUtf8 id)) :
    (AtomicFile.new w p).2 = .error .invalidInput ∧
    ∀ q ∈ ancestors p, q ∈ (AtomicFile.new w p).1.dirs := by
  rcases h with hnone | ⟨id, hid⟩
  · refine ⟨by simp [AtomicFile.new, hnone], fun q hq => ?_⟩
    simp only [AtomicFile.new, hnone, create_dir_all, List.mem_append]
    exact Or.inl hq
  · refine ⟨by simp [AtomicFile.new, hid], fun q hq => ?_⟩
    simp only [AtomicFile.new, hid, create_dir_all, List.mem_append]
    exact Or.inl hq

/-! Lemmas about the retry loops. -/

theorem modifyLoop_step_ok {af : AtomicFile} {op : Bytes → Bytes} {ts : Nat → TmpFile}
    {sp : Bool} {mids : Nat → Fs → Fs} {fuel i : Nat} {fs fs1 : Fs}
    (hb : modifyBody af op (ts i) sp (mids i) fs = (fs1, .ok ())) :
    modifyLoop af op ts sp mids (fuel + 1) i fs = (fs1, some (.ok ()), i + 1) := by
  simp [modifyLoop, hb]

theorem modifyLoop_step_err {af : AtomicFile} {op : Bytes → Bytes} {ts : Nat → TmpFile}
    {sp : Bool} {mids : Nat → Fs → Fs} {fuel i : Nat} {fs fs1 : Fs} {e : ErrorKind}
    (hb : modifyBody af op (ts i) sp (mids i) fs = (fs1, .error e))
    (hne : e ≠ .alreadyExists) :
    modifyLoop af op ts sp mids (fuel + 1) i fs = (fs1, some (.error e), i + 1) := by
  simp [modifyLoop, hb, hne]

theorem modifyLoop_step_conflict {af : AtomicFile} {op : Bytes → Bytes} {ts : Nat → TmpFile}
    {sp : Bool} {mids : Nat → Fs → Fs} {fuel i : Nat} {fs fs1 : Fs}
    (hb : modifyBody af op (ts i) sp (mids i) fs = (fs1, .error .alreadyExists)) :
    modifyLoop af op ts sp mids (fuel + 1) i fs = modifyLoop af op ts sp mids fuel (i + 1) fs1 := by
  simp [modifyLoop, hb]

theorem modifyJsonLoop_step_ok {T : Type} {af : AtomicFile} {c : JsonCodec T}
    {op : Option T → Option T} {ts : Nat → TmpFile} {sp : Bool} {mids : Nat → Fs → Fs}
    {fuel i : Nat} {fs fs1 : Fs}
    (hb : modifyJsonBody af c op (ts i) sp (mids i) fs = (fs1, .ok ())) :
    modifyJsonLoop af c op ts sp mids (fuel + 1) i fs = (fs1, some (.ok ()), i + 1) := by
  simp [modifyJsonLoop, hb]

theorem modifyJsonLoop_step_err {T : Type} {af : AtomicFile} {c : JsonCodec T}
    {op : Option T → Option T} {ts : Nat → TmpFile} {sp : Bool} {mids : Nat → Fs → Fs}
    {fuel i : Nat} {fs fs1 : Fs} {e : ErrorKind}
    (hb : modifyJsonBody af c op (ts i) sp (mids i) fs = (fs1, .error e))
    (hne : e ≠ .alreadyExists) :
    modifyJsonLoop af c op ts sp mids (fuel + 1) i fs = (fs1, some (.error e), i + 1) := by
  simp [modifyJsonLoop, hb, hne]

theorem modifyJsonLoop_step_conflict {T : Type} {af : AtomicFile} {c : JsonCodec T}
    {op : Option T → Option T} {ts : Nat → TmpFile} {sp : Bool} {mids : Nat → Fs → Fs}
    {fuel i : Nat} {fs fs1 : Fs}
    (hb : modifyJsonBody af c op (ts i) sp (mids i) fs = (fs1, .error .alreadyExists)) :
    modifyJsonLoop af c op ts sp mids (fuel + 1) i fs
      = modifyJsonLoop af c op ts sp mids fuel (i + 1) fs1 := by
  simp [modifyJsonLoop, hb]

theorem modifyLoop_no_conflict_result {af : AtomicFile} {op : Bytes → Bytes}
    {ts : Nat → TmpFile} {sp : Bool} {mids : Nat → Fs → Fs} (fuel : Nat) :
    ∀ i fs e, (modifyLoop af op ts sp mids fuel i fs).2.1 = some (.error e) →
      e ≠ .alreadyExists := by
  induction fuel with
  | zero => intro i fs e h; simp [modifyLoop] at h
  | succ n ih =>
    intro i fs e h
    rcases hb : modifyBody af op (ts i) sp (mids i) fs with ⟨fs1, r⟩
    cases r with
    | ok u =>
      cases u
      rw [modifyLoop_step_ok hb] at h
      simp at h
    | error e' =>
      by_cases he : e' = .alreadyExists
      · subst he
        rw [modifyLoop_step_conflict hb] at h
        exact ih _ _ _ h
      · rw [modifyLoop_step_err hb he] at h
        simp at h
        exact h ▸ he

theorem modifyJsonLoop_no_conflict_result {T : Type} {af : AtomicFile} {c : JsonCodec T}
    {op : Option T → Option T} {ts : Nat → TmpFile} {sp : Bool} {mids : Nat → Fs → Fs}
    (fuel : Nat) :
    ∀ i fs e, (modifyJsonLoop af c op ts sp mids fuel i fs).2.1 = some (.error e) →
      e ≠ .alreadyExists := by
  induction fuel with
  | zero => intro i fs e h; simp [modifyJsonLoop] at h
  | succ n ih =>
    intro i fs e h
    rcases hb : modifyJsonBody af c op (ts i) sp (mids i) fs with ⟨fs1, r⟩
    cases r with
    | ok u =>
      cases u
      rw [modifyJsonLoop_step_ok hb] at h
      simp at h
    | error e' =>
      by_cases he : e' = .alreadyExists
      · subst he
        rw [modifyJsonLoop_step_conflict hb] at h
        exact ih _ _ _ h
      · rw [modifyJsonLoop_step_err hb he] at h
        simp at h
        exact h ▸ he

theorem jsonBody_decode_error {T : Type} {af : AtomicFile} {c : JsonCodec T}
    {op : Option T → Option T} {t : TmpFile} {sp : Bool} {mid : Fs → Fs} {fs : Fs}
    {b : Bytes} (hread : readRO fs (af.load fs) = .ok (some b)) (hdec : c.dec b = none) :
    modifyJsonBody af c op t sp mid fs = (fs, .error .invalidData) := by
  simp [modifyJsonBody, hread, hdec]

/-- Claim C5: in both update loops, an `AlreadyExists` (Conflict) result
from `compare_and_swap` is always retried — it restarts the loop with the
next attempt, for every remaining fuel, and is never the loop's result —
while every other error, including a decode failure of the stored bytes in
`modify_json`, is returned to the caller immediately after the failing
attempt, with no further attempts. -/
theorem conflict_retried_other_errors_propagated :
    (∀ (af : AtomicFile) (op : Bytes → Bytes) (ts : Nat → TmpFile) (sp : Bool)
      (mids : Nat → Fs → Fs) (fuel i : Nat) (fs : Fs) (e : ErrorKind),
      (modifyLoop af op ts sp mids fuel i fs).2.1 = some (.error e) →
      e ≠ .alreadyExists) ∧
    (∀ (af : AtomicFile) (op : Bytes → Bytes) (ts : Nat → TmpFile) (sp : Bool)
      (mids : Nat → Fs → Fs) (fuel i : Nat) (fs fs1 : Fs) (e : ErrorKind),
      modifyBody af op (ts i) sp (mids i) fs = (fs1, .error e) → e ≠ .alreadyExists →
      modifyLoop af op ts sp mids (fuel + 1) i fs = (fs1, some (.error e), i + 1)) ∧
    (∀ (af : AtomicFile) (op : Bytes → Bytes) (ts : Nat → TmpFile) (sp : Bool)
      (mids : Nat → Fs → Fs) (fuel i : Nat) (fs fs1 : Fs),
      modifyBody af op (ts i) sp (mids i) fs = (fs1, .error .alreadyExists) →
      modifyLoop af op ts sp mids (fuel + 1) i fs
        = modifyLoop af op ts sp mids fuel (i + 1) fs1) ∧
    (∀ (T : Type) (af : AtomicFile) (c : JsonCodec T) (op : Option T → Option T)
      (ts : Nat → TmpFile) (sp : Bool) (mids : Nat → Fs → Fs) (fuel i : Nat) (fs : Fs)
      (e : ErrorKind),
      (modifyJsonLoop af c op ts sp mids fuel i fs).2.1 = some (.error e) →
      e ≠ .alreadyExists) ∧
    (∀ (T : Type) (af : AtomicFile) (c : JsonCodec T) (op : Option T → Option T)
      (ts : Nat → TmpFile) (sp : Bool) (mids : Nat → Fs → Fs) (fuel i : Nat) (fs fs1 : Fs)
      (e : ErrorKind),
      modifyJsonBody af c op (ts i) sp (mids i) fs = (fs1, .error e) → e ≠ .alreadyExists →
      modifyJsonLoop af c op ts sp mids (fuel + 1) i fs = (fs1, some (.error e), i + 1)) ∧
    (∀ (T : Type) (af : AtomicFile) (c : JsonCodec T) (op : Option T → Option T)
      (ts : Nat → TmpFile) (sp : Bool) (mids : Nat → Fs → Fs) (fuel i : Nat) (fs fs1 : Fs),
      modifyJsonBody af c op (ts i) sp (mids i) fs = (fs1, .error .alreadyExists) →
      modifyJsonLoop af c op ts sp mids (fuel + 1) i fs
        = modifyJsonLoop af c op ts sp mids fuel (i + 1) fs1) ∧
    (∀ (T : Type) (af : AtomicFile) (c : JsonCodec T) (op : Option T → Option T)
      (ts : Nat → TmpFile) (sp : Bool) (mids : Nat → Fs → Fs) (fuel i : Nat) (fs : Fs)
      (b : Bytes),
      readRO fs (af.load fs) = .ok (some b) → c.dec b = none →
      modifyJsonLoop af c op ts sp mids (fuel + 1) i fs
        = (fs, some (.error .invalidData), i + 1)) := by
  refine ⟨fun af op ts sp mids fuel => modifyLoop_no_conflict_result fuel,
    fun af op ts sp mids fuel i fs fs1 e hb hne => modifyLoop_step_err hb hne,
    fun af op ts sp mids fuel i fs fs1 hb => modifyLoop_step_conflict hb,
    fun T af c op ts sp mids fuel => modifyJsonLoop_no_conflict_result fuel,
    fun T af c op ts sp mids fuel i fs fs1 e hb hne => modifyJsonLoop_step_err hb hne,
    fun T af c op ts sp mids fuel i fs fs1 hb => modifyJsonLoop_step_conflict hb,
    fun T af c op ts sp mids fuel i fs b hread hdec => ?_⟩
  exact modifyJsonLoop_step_err (jsonBody_decode_error hread hdec) (by decide)

/-- Claim C4: from a well-formed store at version `K`, `compare_and_swap`
on a freshly written temp file succeeds, and a subsequent `load` (after the
temp handle is dropped, with no other publisher intervening) returns
version exactly `K + 1`. -/
theorem cas_publishes_next_version (af : AtomicFile) (fs : Fs) (K : Nat) (t : TmpFile)
    (sp : Bool) (data : Bytes)
    (hok : StoreOk af fs K)
    (hK : K + 1 ≤ usizeMax)
    (htp : parse_version t.path af.pfx = none)
    (htm : t.path ∉ fsNames fs)
    (hti : ∀ e ∈ fs.entries, e.2 ≠ t.inode) :
    (af.compare_and_swap (writeTemp fs t data) { version := K, path := af.path K } t sp).2
      = .ok () ∧
    (af.load (removeName
        (af.compare_and_swap (writeTemp fs t data) { version := K, path := af.path K }
          t sp).1 t.path)).version = K + 1 := by
  obtain ⟨hS1, hS2, hS3⟩ := hok
  have hparse1 : parse_version (af.path (K + 1)) af.pfx = some (K + 1) :=
    parse_version_path hK
  have htarget_fs : af.path (K + 1) ∉ fsNames fs := by
    intro hmem
    have := hS2 _ hmem
    rw [hparse1] at this
    simp at this
  have hne_tp : af.path (K + 1) ≠ t.path := by
    intro h
    rw [h, htp] at hparse1
    cases hparse1
  have hnames1 : fsNames (writeTemp fs t data) = t.path :: fsNames fs := by
    simp [writeTemp, fsNames]
  have htarget1 : af.path (K + 1) ∉ fsNames (writeTemp fs t data) := by
    rw [hnames1]
    simp only [List.mem_cons, not_or]
    exact ⟨hne_tp, htarget_fs⟩
  have htmp1 : (t.path, t.inode) ∈ (writeTemp fs t data).entries := by
    simp [writeTemp]
  have hnl1 : nlink (writeTemp fs t data) t.inode = 1 := by
    show nlink ⟨(t.path, t.inode) :: fs.entries, (t.inode, data) :: fs.data⟩ t.inode = 1
    rw [nlink_cons, if_pos rfl]
    have : nlink ⟨fs.entries, (t.inode, data) :: fs.data⟩ t.inode = 0 := nlink_zero hti
    rw [this]
  have hnd1 : (fsNames (writeTemp fs t data)).Nodup := by
    rw [hnames1]
    exact List.nodup_cons.mpr ⟨htm, hS3⟩
  have hcas := @cas_success af (writeTemp fs t data) { version := K, path := af.path K }
    t sp htarget1 htmp1 hnl1 hnd1
  refine ⟨by rw [hcas], ?_⟩
  rw [hcas]
  have herase : removeName
      { writeTemp fs t data with entries := (af.path (K + 1), t.inode)
          :: (writeTemp fs t data).entries } t.path
      = ⟨(af.path (K + 1), t.inode) :: fs.entries, (t.inode, data) :: fs.data⟩ := by
    simp only [removeName, writeTemp]
    rw [List.eraseP_cons_of_neg (by simp [hne_tp]), List.eraseP_cons_of_pos (by simp)]
  rw [herase]
  have hge : K + 1 ≤ latest_version (af.path (K + 1) :: fsNames fs) af.pfx :=
    latest_version_ge (List.mem_cons_self _ _) hparse1
  have hle : latest_version (af.path (K + 1) :: fsNames fs) af.pfx ≤ K + 1 := by
    refine latest_version_le fun nm hnm => ?_
    rcases List.mem_cons.mp hnm with rfl | hnm'
    · rw [hparse1]; simp
    · exact Nat.le_trans (hS2 nm hnm') (Nat.le_succ K)
  have : latest_version (af.path (K + 1) :: fsNames fs) af.pfx = K + 1 :=
    Nat.le_antisymm hle hge
  simp only [AtomicFile.load, fsNames] at *
  simpa using this

/-- Claim C9: `modify_json` serializes the transformed `Option<T>`, so a
transform that leaves the value absent publishes exactly the bytes `null`
(first clause, on a fresh store); the read side always decodes stored bytes
as a plain `T` and wraps them in `Some`, so on a store whose latest content
is `null`, any `T` whose decoder rejects `null` makes a subsequent
`modify_json` fail immediately with the decode error (second clause). -/
theorem absent_value_roundtrip_asymmetry :
    (∀ (T : Type) (af : AtomicFile) (c : JsonCodec T) (op : Option T → Option T)
      (t : TmpFile) (sp : Bool) (fs : Fs),
      (∀ nm ∈ fsNames fs, parse_version nm af.pfx = none) →
      (fsNames fs).Nodup →
      t.path ∉ fsNames fs →
      parse_version t.path af.pfx = none →
      (∀ e ∈ fs.entries, e.2 ≠ t.inode) →
      op none = none →
      (modifyJsonBody af c op t sp (fun x => x) fs).2 = .ok () ∧
      readVersion (modifyJsonBody af c op t sp (fun x => x) fs).1 (af.path 1)
        = some nullBytes) ∧
    (∀ (T : Type) (af : AtomicFile) (c : JsonCodec T) (op : Option T → Option T)
      (ts : Nat → TmpFile) (sp : Bool) (mids : Nat → Fs → Fs) (fuel i : Nat) (fs : Fs),
      readRO fs (af.load fs) = .ok (some nullBytes) → c.dec nullBytes = none →
      modifyJsonLoop af c op ts sp mids (fuel + 1) i fs
        = (fs, some (.error .invalidData), i + 1)) := by
  constructor
  · intro T af c op t sp fs h hnd htm htp hti hop
    have hz : latest_version (fsNames fs) af.pfx = 0 := latest_version_zero h
    have hload : af.load fs = { version := 0, path := af.path 0 } := by
      simp [AtomicFile.load, hz]
    have hread : readRO fs (af.load fs) = .ok none := by
      rw [hload]
      simp [readRO, ReadOnlyFile.openFile]
    have henc : encOpt c (op none) = nullBytes := by rw [hop]; rfl
    have hone : (1 : Nat) ≤ usizeMax := by norm_num [usizeMax]
    have hparse1 : parse_version (af.path 1) af.pfx = some 1 := parse_version_path hone
    have htarget_fs : af.path 1 ∉ fsNames fs := by
      intro hmem
      rw [h _ hmem] at hparse1
      cases hparse1
    have hne_tp : af.path 1 ≠ t.path := by
      intro heq
      rw [heq, htp] at hparse1
      cases hparse1
    have hbody : modifyJsonBody af c op t sp (fun x => x) fs
        = (removeName
            (af.compare_and_swap (writeTemp fs t nullBytes) (af.load fs) t sp).1 t.path,
          (af.compare_and_swap (writeTemp fs t nullBytes) (af.load fs) t sp).2) := by
      simp only [modifyJsonBody, hread, henc]
    have htarget1 : af.path (0 + 1) ∉ fsNames (writeTemp fs t nullBytes) := by
      have : fsNames (writeTemp fs t nullBytes) = t.path :: fsNames fs := by
        simp [writeTemp, fsNames]
      rw [this]
      simp only [List.mem_cons, not_or, Nat.zero_add]
      exact ⟨hne_tp, htarget_fs⟩
    have htmp1 : (t.path, t.inode) ∈ (writeTemp fs t nullBytes).entries := by
      simp [writeTemp]
    have hnl1 : nlink (writeTemp fs t nullBytes) t.inode = 1 := by
      show nlink ⟨(t.path, t.inode) :: fs.entries, (t.inode, nullBytes) :: fs.data⟩
        t.inode = 1
      rw [nlink_cons, if_pos rfl]
      have : nlink ⟨fs.entries, (t.inode, nullBytes) :: fs.data⟩ t.inode = 0 :=
        nlink_zero hti

      rw [this]
    have hnd1 : (fsNames (writeTemp fs t nullBytes)).Nodup := by
      have : fsNames (writeTemp fs t nullBytes) = t.path :: fsNames fs := by
        simp [writeTemp, fsNames]
      rw [this]
      exact List.nodup_cons.mpr ⟨htm, hnd⟩
    have hcas := @cas_success af (writeTemp fs t nullBytes)
      { version := 0, path := af.path 0 } t sp htarget1 htmp1 hnl1 hnd1
    rw [hload] at hbody
    rw [hbody, hcas]
    have herase : removeName
        { writeTemp fs t nullBytes with entries := (af.path (0 + 1), t.inode)
            :: (writeTemp fs t nullBytes).entries } t.path
        = ⟨(af.path 1, t.inode) :: fs.entries, (t.inode, nullBytes) :: fs.data⟩ := by
      simp only [removeName, writeTemp, Nat.zero_add]
      rw [List.eraseP_cons_of_neg (by simp [hne_tp]), List.eraseP_cons_of_pos (by simp)]
    rw [herase]
    refine ⟨rfl, ?_⟩
    rw [readVersion, lookupName_cons_self]
    simp only [Option.map_some']
    rw [readData_cons, if_pos rfl]
  · intro T af c op ts sp mids fuel i fs hread hdec
    exact modifyJsonLoop_step_err (jsonBody_decode_error hread hdec) (by decide)

/-! Lemmas about the concurrent-system invariant. -/

theorem getD_le_elim {o : Option Nat} {cur v : Nat} (h : o.getD 0 ≤ cur)
    (hv : o = some v) : v ≤ cur := by
  rw [hv] at h
  exact h

theorem latest_eq_cur {af : AtomicFile} {fs : Fs} {cur : Nat}
    (hok : StoreOk af fs cur) (hb : cur ≤ usizeMax) :
    latest_version (fsNames fs) af.pfx = cur := by
  obtain ⟨hS1, hS2, hS3⟩ := hok
  refine Nat.le_antisymm (latest_version_le hS2) ?_
  cases cur with
  | zero => exact Nat.zero_le _
  | succ c =>
    have hmem : af.path (c + 1) ∈ fsNames fs :=
      hS1 _ (List.mem_range'_1.mpr ⟨by omega, by omega⟩)
    exact latest_version_ge hmem (parse_version_path hb)

theorem load_eq {af : AtomicFile} {fs : Fs} {cur : Nat}
    (hok : StoreOk af fs cur) (hb : cur ≤ usizeMax) :
    af.load fs = { version := cur, path := af.path cur } := by
  simp [AtomicFile.load, latest_eq_cur hok hb]

theorem lookup_of_name_mem {fs : Fs} {nm : OsName} (h : nm ∈ fsNames fs)
    (hnd : (fsNames fs).Nodup) :
    ∃ i, lookupName fs nm = some i ∧ (nm, i) ∈ fs.entries := by
  obtain ⟨e, he, heq⟩ := List.mem_map.mp h
  have hpair : (nm, e.2) ∈ fs.entries := by
    have : e = (nm, e.2) := by
      rcases e with ⟨a, b⟩
      simp only at heq
      rw [heq]
    rw [← this]
    exact he
  exact ⟨e.2, lookupName_of_mem hpair hnd, hpair⟩

theorem readRO_latest {af : AtomicFile} {tr : Transform} {seed : Option Bytes}
    {n0 : Nat} {fs : Fs} {len : Nat}
    (hok : StoreOk af fs (n0 + len))
    (hb : n0 + len ≤ usizeMax)
    (hA6 : ∀ j ∈ List.range' 1 len, readVersion fs (af.path (n0 + j)) = chainFrom tr seed j)
    (hseed1 : 1 ≤ n0 → ∃ b, seed = some b ∧ readVersion fs (af.path n0) = some b)
    (hseed0 : n0 = 0 → seed = none) :
    readRO fs (af.load fs) = .ok (chainFrom tr seed len) := by
  rw [load_eq hok hb]
  by_cases hc : n0 + len = 0
  · have hn0 : n0 = 0 := by omega
    have hlen : len = 0 := by omega
    rw [hc, hlen]
    simp [readRO, ReadOnlyFile.openFile, chainFrom, hseed0 hn0]
  · have hmem : af.path (n0 + len) ∈ fsNames fs :=
      hok.1 _ (List.mem_range'_1.mpr ⟨by omega, by omega⟩)
    obtain ⟨i, hl, hent⟩ := lookup_of_name_mem hmem hok.2.2
    have hco : readVersion fs (af.path (n0 + len)) = some (readData fs i) := by
      rw [readVersion, hl, Option.map_some']
    cases len with
    | zero =>
      obtain ⟨b, hs, hv⟩ := hseed1 (by omega)
      have hbi : readData fs i = b := by
        rw [Nat.add_zero] at hco
        rw [hco] at hv
        exact Option.some_inj.mp hv
      simp only [readRO, ReadOnlyFile.openFile, if_pos hc, hl]
      rw [chainFrom, hs, hbi]
    | succ j =>
      have hA := hA6 (j + 1) (List.mem_range'_1.mpr ⟨by omega, by omega⟩)
      rw [hco] at hA
      simp only [readRO, ReadOnlyFile.openFile, if_pos hc, hl]
      rw [← hA]

theorem countOk_cons (x : CallerState) (t : List CallerState) :
    countOk (x :: t) = (if x = .finishedOk then 1 else 0) + countOk t := by
  simp only [countOk, List.filter_cons]
  by_cases h : x = .finishedOk <;> simp [h, Nat.add_comm]

theorem countOk_set {l : List CallerState} {c : Nat} {old : CallerState}
    (a : CallerState) (h : l[c]? = some old) :
    countOk (l.set c a) + (if old = .finishedOk then 1 else 0)
      = countOk l + (if a = .finishedOk then 1 else 0) := by
  induction l generalizing c with
  | nil => cases h
  | cons x t ih =>
    cases c with
    | zero =>
      have hx : old = x := by
        simp only [List.getElem?_cons_zero, Option.some_inj] at h
        exact h.symm
      subst hx
      simp only [List.set_cons_zero, countOk_cons]
      omega
    | succ c =>
      simp only [List.getElem?_cons_succ] at h
      simp only [List.set_cons_succ, countOk_cons]
      have := ih h
      omega

theorem countOk_le_length (l : List CallerState) : countOk l ≤ l.length :=
  List.length_filter_le _ l

theorem countOk_lt_length {l : List CallerState} {c : Nat} {st : CallerState}
    (h : l[c]? = some st) (hne : st ≠ .finishedOk) : countOk l < l.length := by
  induction l generalizing c with
  | nil => cases h
  | cons x t ih =>
    cases c with
    | zero =>
      have hx : st = x := by
        simp only [List.getElem?_cons_zero, Option.some_inj] at h
        exact h.symm
      subst hx
      rw [countOk_cons, if_neg hne]
      have := countOk_le_length t
      simp only [List.length_cons]
      omega
    | succ c =>
      simp only [List.getElem?_cons_succ] at h
      have := ih h
      rw [countOk_cons]
      by_cases hx : x = .finishedOk <;> simp only [hx, if_pos, if_neg, List.length_cons] <;>
        simp <;> omega

theorem tempName_add_inj (fresh : Nat) :
    Function.Injective (fun j => tempName (fresh + j)) := by
  intro a b hab
  have := tempName_inj hab
  omega

theorem pickTemp_spec (fs : Fs) (fresh : Nat) :
    tempName (pickTemp fs fresh) ∉ fsNames fs ∧ fresh ≤ pickTemp fs fresh := by
  unfold pickTemp
  rcases hf : (List.range (fs.entries.length + 1)).find?
      (fun j => decide (tempName (fresh + j) ∉ fsNames fs)) with _ | j
  · exfalso
    have hall : ∀ j ∈ List.range (fs.entries.length + 1), tempName (fresh + j) ∈ fsNames fs := by
      intro j hj
      have := List.find?_eq_none.mp hf j hj
      simpa using this
    set L := (List.range (fs.entries.length + 1)).map (fun j => tempName (fresh + j)) with hL
    have hnodup : L.Nodup := (List.nodup_range _).map (tempName_add_inj fresh)
    have hsub : L.toFinset ⊆ (fsNames fs).toFinset := by
      intro x hx
      rw [List.mem_toFinset] at hx ⊢
      obtain ⟨j, hj, rfl⟩ := List.mem_map.mp hx
      exact hall j hj
    have h1 : L.toFinset.card = fs.entries.length + 1 := by
      rw [List.toFinset_card_of_nodup hnodup, hL, List.length_map, List.length_range]
    have h2 : (fsNames fs).toFinset.card ≤ fs.entries.length := by
      refine Nat.le_trans (List.toFinset_card_le _) ?_
      simp [fsNames]
    have := Finset.card_le_card hsub
    omega
  · have hp := List.find?_some hf
    simp only [decide_eq_true_eq] at hp
    exact ⟨hp, Nat.le_add_right fresh j⟩

theorem readVersion_cons_entry_ne {es : List (OsName × Nat)} {d : List (Nat × Bytes)}
    {nm n' : OsName} {i' : Nat} (h : n' ≠ nm) :
    readVersion ⟨(n', i') :: es, d⟩ nm = readVersion ⟨es, d⟩ nm := by
  rw [readVersion, readVersion, lookupName_cons_ne h]
  rfl

theorem readVersion_cons_data {es : List (OsName × Nat)} {ds : List (Nat × Bytes)}
    {nm : OsName} {i : Nat} {b : Bytes}
    (h : ∀ ii, lookupName ⟨es, ds⟩ nm = some ii → ii ≠ i) :
    readVersion ⟨es, (i, b) :: ds⟩ nm = readVersion ⟨es, ds⟩ nm := by
  rw [readVersion, readVersion]
  have hsame : lookupName (⟨es, (i, b) :: ds⟩ : Fs) nm = lookupName ⟨es, ds⟩ nm := rfl
  rw [hsame]
  rcases hl : lookupName (⟨es, ds⟩ : Fs) nm with _ | ii
  · rfl
  · simp only [Option.map_some']
    rw [readData_cons, if_neg (fun he => (h ii hl) he.symm)]

theorem lookupName_mem {fs : Fs} {nm : OsName} {i : Nat} (h : lookupName fs nm = some i) :
    (nm, i) ∈ fs.entries := by
  simp only [lookupName] at h
  rcases hf : fs.entries.find? (fun e => decide (e.1 = nm)) with _ | e
  · rw [hf] at h; cases h
  · rw [hf] at h
    simp only [Option.map_some', Option.some_inj] at h
    have h1 := List.find?_some hf
    have h2 := List.mem_of_find?_eq_some hf
    simp only [decide_eq_true_eq] at h1
    have : (nm, i) = e := by
      rcases e with ⟨a, b⟩
      simp only at h1 h
      rw [h1, h]
    rw [this]
    exact h2

theorem step_inv {af : AtomicFile} {tr : Transform} {seed : Option Bytes} {n0 N : Nat}
    (hdot : '.' ∈ af.pfx) (hbound : n0 + N ≤ usizeMax)
    {s : SysState} (hinv : Inv af tr seed n0 N s) (ev : Event) :
    Inv af tr seed n0 N (step af tr s ev) := by
  obtain ⟨hok, hpub, hlen, hcnt, hA5, hA6, hseed1, hseed0, hA7⟩ := hinv
  have hcurb : n0 + s.published.length ≤ usizeMax := by
    have h1 := countOk_le_length s.callers
    omega
  cases ev with
  | load c =>
    rcases hc : s.callers[c]? with _ | st
    · simp only [step, hc]
      exact ⟨hok, hpub, hlen, hcnt, hA5, hA6, hseed1, hseed0, hA7⟩
    · cases st with
      | idle =>
        have hclt : c < s.callers.length := (List.getElem?_eq_some.mp hc).1
        have hread : readRO s.fs
            ⟨n0 + s.published.length, af.path (n0 + s.published.length)⟩
            = .ok (chainFrom tr seed s.published.length) := by
          rw [← load_eq hok hcurb]
          exact readRO_latest hok hcurb hA6 hseed1 hseed0
        have hgoal : step af tr s (.load c)
            = { s with callers := (s.callers.set c (CallerState.loaded (n0 + s.published.length) (chainFrom tr seed s.published.length))) } := by
          simp only [step, hc, load_eq hok hcurb, hread]
        rw [hgoal]
        dsimp only [Inv]
        refine ⟨hok, hpub, by simp [hlen], ?_, ?_, hA6, hseed1, hseed0, hA7⟩
        · have hs := countOk_set
            (CallerState.loaded (n0 + s.published.length) (chainFrom tr seed s.published.length)) hc
          rw [if_neg (by simp : (CallerState.idle : CallerState) ≠ .finishedOk),
            if_neg (by simp : CallerState.loaded (n0 + s.published.length)
              (chainFrom tr seed s.published.length) ≠ .finishedOk)] at hs
          omega
        · intro c' k ob h'
          by_cases hcc : c = c'
          · subst hcc
            rw [List.getElem?_set_self hclt] at h'
            have h1 : CallerState.loaded (n0 + s.published.length)
                (chainFrom tr seed s.published.length) = CallerState.loaded k ob :=
              Option.some_inj.mp h'
            cases h1
            refine ⟨Nat.le_add_right n0 _, Nat.le_refl _, ?_⟩
            congr 1
            omega
          · rw [List.getElem?_set_ne hcc] at h'
            exact hA5 c' k ob h'
      | loaded k ob =>
        simp only [step, hc]
        exact ⟨hok, hpub, hlen, hcnt, hA5, hA6, hseed1, hseed0, hA7⟩
      | finishedOk =>
        simp only [step, hc]
        exact ⟨hok, hpub, hlen, hcnt, hA5, hA6, hseed1, hseed0, hA7⟩
      | finishedErr e =>
        simp only [step, hc]
        exact ⟨hok, hpub, hlen, hcnt, hA5, hA6, hseed1, hseed0, hA7⟩
  | cas c sp =>
    rcases hc : s.callers[c]? with _ | st
    · simp only [step, hc]
      exact ⟨hok, hpub, hlen, hcnt, hA5, hA6, hseed1, hseed0, hA7⟩
    · cases st with
      | idle =>
        simp only [step, hc]
        exact ⟨hok, hpub, hlen, hcnt, hA5, hA6, hseed1, hseed0, hA7⟩
      | finishedOk =>
        simp only [step, hc]
        exact ⟨hok, hpub, hlen, hcnt, hA5, hA6, hseed1, hseed0, hA7⟩
      | finishedErr e =>
        simp only [step, hc]
        exact ⟨hok, hpub, hlen, hcnt, hA5, hA6, hseed1, hseed0, hA7⟩
      | loaded k ob =>
        have hclt : c < s.callers.length := (List.getElem?_eq_some.mp hc).1
        obtain ⟨hkn0, hkcur, hob⟩ := hA5 c k ob hc
        cases htr : tr ob with
        | error e =>
          have hgoal : step af tr s (.cas c sp)
              = { s with callers := s.callers.set c (.finishedErr e) } := by
            simp only [step, hc, htr]
          rw [hgoal]
          dsimp only [Inv]
          refine ⟨hok, hpub, by simp [hlen], ?_, ?_, hA6, hseed1, hseed0, hA7⟩
          · have hs := countOk_set (CallerState.finishedErr e) hc
            rw [if_neg (by simp : CallerState.loaded k ob ≠ .finishedOk),
              if_neg (by simp : CallerState.finishedErr e ≠ .finishedOk)] at hs
            omega
          · intro c' k' ob' h'
            by_cases hcc : c = c'
            · subst hcc
              rw [List.getElem?_set_self hclt] at h'
              cases h'
            · rw [List.getElem?_set_ne hcc] at h'
              exact hA5 c' k' ob' h'
        | ok b =>
          obtain ⟨hpk1, hpk2⟩ := pickTemp_spec s.fs s.fresh
          have hcntlt : countOk s.callers < s.callers.length :=
            countOk_lt_length hc (by simp)
          have hcurb1 : n0 + s.published.length + 1 ≤ usizeMax := by omega
          have hidx_inode : ∀ e ∈ s.fs.entries, e.2 ≠ pickTemp s.fs s.fresh :=
            fun e he hh => by have := hA7 e he; omega
          have htmp1 : (tempName (pickTemp s.fs s.fresh), pickTemp s.fs s.fresh) ∈
              (writeTemp s.fs ⟨tempName (pickTemp s.fs s.fresh), pickTemp s.fs s.fresh⟩
                b).entries := by
            simp [writeTemp]
          have hnames1 : fsNames (writeTemp s.fs
              ⟨tempName (pickTemp s.fs s.fresh), pickTemp s.fs s.fresh⟩ b)
              = tempName (pickTemp s.fs s.fresh) :: fsNames s.fs := by
            simp [writeTemp, fsNames]
          have hnl1 : nlink (writeTemp s.fs
              ⟨tempName (pickTemp s.fs s.fresh), pickTemp s.fs s.fresh⟩ b)
              (pickTemp s.fs s.fresh) = 1 := by
            show nlink ⟨(tempName (pickTemp s.fs s.fresh), pickTemp s.fs s.fresh)
              :: s.fs.entries, _⟩ (pickTemp s.fs s.fresh) = 1
            rw [nlink_cons, if_pos rfl]
            have h0 : nlink ⟨s.fs.entries, (pickTemp s.fs s.fresh, b) :: s.fs.data⟩
                (pickTemp s.fs s.fresh) = 0 := nlink_zero hidx_inode
            rw [h0]
          have hnd1 : (fsNames (writeTemp s.fs
              ⟨tempName (pickTemp s.fs s.fresh), pickTemp s.fs s.fresh⟩ b)).Nodup := by
            rw [hnames1]
            exact List.nodup_cons.mpr ⟨hpk1, hok.2.2⟩
          by_cases hk : k = n0 + s.published.length
          · -- the snapshot is current: the publish succeeds and appends version k+1
            have htargetn : af.path (k + 1) ∉ fsNames s.fs := by
              intro hmem
              have h1 := hok.2.1 _ hmem
              rw [parse_version_path (by omega)] at h1
              simp at h1
              omega
            have hne_t : af.path (k + 1) ≠ tempName (pickTemp s.fs s.fresh) := by
              intro heq
              have h1 : parse_version (af.path (k + 1)) af.pfx = some (k + 1) :=
                parse_version_path (by omega)
              rw [heq, parse_tempName hdot] at h1
              cases h1
            have htarget1 : af.path (k + 1) ∉ fsNames (writeTemp s.fs
                ⟨tempName (pickTemp s.fs s.fresh), pickTemp s.fs s.fresh⟩ b) := by
              rw [hnames1]
              simp only [List.mem_cons, not_or]
              exact ⟨hne_t, htargetn⟩
            have hcas := @cas_success af
              (writeTemp s.fs ⟨tempName (pickTemp s.fs s.fresh), pickTemp s.fs s.fresh⟩ b)
              ⟨k, af.path k⟩
              ⟨tempName (pickTemp s.fs s.fresh), pickTemp s.fs s.fresh⟩ sp
              htarget1 htmp1 hnl1 hnd1
            have hrm : removeName ⟨(af.path (k + 1), pickTemp s.fs s.fresh)
                  :: (tempName (pickTemp s.fs s.fresh), pickTemp s.fs s.fresh)
                  :: s.fs.entries,
                (pickTemp s.fs s.fresh, b) :: s.fs.data⟩ (tempName (pickTemp s.fs s.fresh))
                = ⟨(af.path (k + 1), pickTemp s.fs s.fresh) :: s.fs.entries,
                   (pickTemp s.fs s.fresh, b) :: s.fs.data⟩ := by
              simp only [removeName]
              rw [List.eraseP_cons_of_neg (by simp [hne_t]), List.eraseP_cons_of_pos (by simp)]
            have hgoal : step af tr s (.cas c sp)
                = { fs := ⟨(af.path (k + 1), pickTemp s.fs s.fresh) :: s.fs.entries,
                      (pickTemp s.fs s.fresh, b) :: s.fs.data⟩,
                    callers := s.callers.set c .finishedOk,
                    published := s.published ++ [k + 1],
                    fresh := pickTemp s.fs s.fresh + 1 } := by
              simp only [step, hc, htr, hcas]
              simp only [writeTemp]
              rw [hrm]
            rw [hgoal]
            dsimp only [Inv]
            have hlen' : (s.published ++ [k + 1]).length = s.published.length + 1 := by simp
            have hnames' : fsNames (⟨(af.path (k + 1), pickTemp s.fs s.fresh) :: s.fs.entries,
                (pickTemp s.fs s.fresh, b) :: s.fs.data⟩ : Fs)
                = af.path (k + 1) :: fsNames s.fs := by
              simp [fsNames]
            refine ⟨⟨?_, ?_, ?_⟩, ?_, by simp [hlen], ?_, ?_, ?_, ?_, hseed0, ?_⟩
            · intro m hm
              rw [hlen'] at hm
              have hm' := List.mem_range'_1.mp hm
              rw [hnames']
              by_cases hmk : m = k + 1
              · rw [hmk]; exact List.mem_cons_self _ _
              · refine List.mem_cons_of_mem _ (hok.1 m ?_)
                exact List.mem_range'_1.mpr ⟨by omega, by omega⟩
            · intro nm hnm
              rw [hlen']
              rw [hnames'] at hnm
              rcases List.mem_cons.mp hnm with rfl | hnm'
              · rw [parse_version_path (by omega)]
                simp
                omega
              · have := hok.2.1 nm hnm'
                omega
            · rw [hnames']
              exact List.nodup_cons.mpr ⟨htargetn, hok.2.2⟩
            · have h2 : n0 + 1 + 1 * s.published.length = k + 1 := by omega
              rw [hlen', List.range'_concat, h2, ← hpub]
            · rw [hlen']
              have hs := countOk_set CallerState.finishedOk hc
              rw [if_neg (by simp : CallerState.loaded k ob ≠ .finishedOk),
                if_pos rfl] at hs
              omega
            · intro c' k' ob' h'
              rw [hlen']
              by_cases hcc : c = c'
              · subst hcc
                rw [List.getElem?_set_self hclt] at h'
                cases h'
              · rw [List.getElem?_set_ne hcc] at h'
                obtain ⟨ha, hb', hc'⟩ := hA5 c' k' ob' h'
                exact ⟨ha, by omega, hc'⟩
            · intro j hj
              rw [hlen'] at hj
              have hj' := List.mem_range'_1.mp hj
              by_cases hj1 : j = s.published.length + 1
              · subst hj1
                have hn : n0 + (s.published.length + 1) = k + 1 := by omega
                rw [hn]
                have hchain : chainFrom tr seed (s.published.length + 1) = some b := by
                  have hkn : k - n0 = s.published.length := by omega
                  rw [hkn] at hob
                  simp only [chainFrom]
                  rw [← hob, htr]
                rw [hchain, readVersion, lookupName_cons_self, Option.map_some',
                  readData_cons, if_pos rfl]
              · have hjle : j ≤ s.published.length := by omega
                have hne : af.path (k + 1) ≠ af.path (n0 + j) := by
                  intro heq
                  have := path_inj (by omega) (by omega) heq
                  omega
                rw [readVersion_cons_entry_ne hne, readVersion_cons_data]
                · exact hA6 j (List.mem_range'_1.mpr ⟨by omega, by omega⟩)
                · intro ii hii
                  have := hA7 _ (lookupName_mem hii)
                  omega
            · intro hn0
              obtain ⟨b0, hs0, hv0⟩ := hseed1 hn0
              refine ⟨b0, hs0, ?_⟩
              have hne : af.path (k + 1) ≠ af.path n0 := by
                intro heq
                have := path_inj (by omega) (by omega) heq
                omega
              rw [readVersion_cons_entry_ne hne, readVersion_cons_data]
              · exact hv0
              · intro ii hii
                have := hA7 _ (lookupName_mem hii)
                omega
            · intro e he
              rcases List.mem_cons.mp he with rfl | he'
              · simp
              · have := hA7 e he'
                omega
          · -- the snapshot is stale: conflict, the caller goes back to loading
            have hklt : k < n0 + s.published.length := by omega
            have htargetm : af.path (k + 1) ∈ fsNames s.fs :=
              hok.1 _ (List.mem_range'_1.mpr ⟨by omega, by omega⟩)
            have htargetm1 : af.path (k + 1) ∈ fsNames (writeTemp s.fs
                ⟨tempName (pickTemp s.fs s.fresh), pickTemp s.fs s.fresh⟩ b) := by
              rw [hnames1]
              exact List.mem_cons_of_mem _ htargetm
            have hcas := @cas_conflict af
              (writeTemp s.fs ⟨tempName (pickTemp s.fs s.fresh), pickTemp s.fs s.fresh⟩ b)
              ⟨k, af.path k⟩
              ⟨tempName (pickTemp s.fs s.fresh), pickTemp s.fs s.fresh⟩ sp
              htargetm1 htmp1 hnl1 hnd1
            have hrm : removeName ⟨(tempName (pickTemp s.fs s.fresh), pickTemp s.fs s.fresh)
                  :: s.fs.entries, (pickTemp s.fs s.fresh, b) :: s.fs.data⟩
                (tempName (pickTemp s.fs s.fresh))
                = ⟨s.fs.entries, (pickTemp s.fs s.fresh, b) :: s.fs.data⟩ := by
              simp only [removeName]
              rw [List.eraseP_cons_of_pos (by simp)]
            have hgoal : step af tr s (.cas c sp)
                = { fs := ⟨s.fs.entries, (pickTemp s.fs s.fresh, b) :: s.fs.data⟩,
                    callers := s.callers.set c .idle,
                    published := s.published,
                    fresh := pickTemp s.fs s.fresh + 1 } := by
              simp only [step, hc, htr, hcas]
              simp only [writeTemp]
              rw [hrm]
              simp
            rw [hgoal]
            dsimp only [Inv]
            have hdata : ∀ nm, readVersion (⟨s.fs.entries,
                (pickTemp s.fs s.fresh, b) :: s.fs.data⟩ : Fs) nm = readVersion s.fs nm := by
              intro nm
              rw [readVersion_cons_data]
              intro ii hii
              have := hA7 _ (lookupName_mem hii)
              omega
            refine ⟨hok, hpub, by simp [hlen], ?_, ?_, ?_, ?_, hseed0, ?_⟩
            · have hs := countOk_set CallerState.idle hc
              rw [if_neg (by simp : CallerState.loaded k ob ≠ .finishedOk),
                if_neg (by simp : (CallerState.idle : CallerState) ≠ .finishedOk)] at hs
              omega
            · intro c' k' ob' h'
              by_cases hcc : c = c'
              · subst hcc
                rw [List.getElem?_set_self hclt] at h'
                cases h'
              · rw [List.getElem?_set_ne hcc] at h'
                exact hA5 c' k' ob' h'
            · intro j hj
              rw [hdata]
              exact hA6 j hj
            · intro hn0
              obtain ⟨b0, hs0, hv0⟩ := hseed1 hn0
              exact ⟨b0, hs0, by rw [hdata]; exact hv0⟩
            · intro e he
              have := hA7 e he
              omega

theorem runEvents_inv {af : AtomicFile} {tr : Transform} {seed : Option Bytes} {n0 N : Nat}
    (hdot : '.' ∈ af.pfx) (hbound : n0 + N ≤ usizeMax)
    {s : SysState} (hinv : Inv af tr seed n0 N s) (es : List Event) :
    Inv af tr seed n0 N (runEvents af tr es s) := by
  induction es generalizing s with
  | nil => exact hinv
  | cons e es ih => exact ih (step_inv hdot hbound hinv e)

theorem countOk_replicate (N : Nat) : countOk (List.replicate N .idle) = 0 := by
  induction N with
  | zero => rfl
  | succ n ih => rw [List.replicate_succ, countOk_cons, ih, if_neg (by simp)]

theorem freshOf_bound {fs : Fs} : ∀ e ∈ fs.entries, e.2 < freshOf fs := by
  rw [freshOf]
  induction fs.entries with
  | nil => intro e he; cases he
  | cons x t ih =>
    intro e he
    rcases List.mem_cons.mp he with rfl | he'
    · simp only [List.foldr_cons]
      omega
    · have := ih e he'
      simp only [List.foldr_cons]
      omega

theorem initSys_inv {af : AtomicFile} (tr : Transform) {fs0 : Fs} {n0 : Nat} (N : Nat)
    (hok : StoreOk af fs0 n0) :
    Inv af tr (if n0 = 0 then none else readVersion fs0 (af.path n0)) n0 N
      (initSys fs0 N) := by
  refine ⟨hok, rfl, by simp [initSys], ?_, ?_, ?_, ?_, ?_, ?_⟩
  · simp [initSys, countOk_replicate]
  · intro c k ob h'
    simp only [initSys, List.getElem?_replicate] at h'
    split at h' <;> cases h'
  · intro j hj
    simp only [initSys] at hj
    rw [List.mem_range'_1] at hj
    simp at hj
    omega
  · intro hn0
    rw [if_neg (by omega)]
    have hmem : af.path n0 ∈ fsNames fs0 :=
      hok.1 _ (List.mem_range'_1.mpr ⟨by omega, by omega⟩)
    obtain ⟨i, hl, _⟩ := lookup_of_name_mem hmem hok.2.2
    refine ⟨readData fs0 i, by rw [readVersion, hl, Option.map_some'], ?_⟩
    show readVersion fs0 (af.path n0) = some (readData fs0 i)
    rw [readVersion, hl, Option.map_some']
  · intro hn0
    rw [if_pos hn0]
  · exact freshOf_bound

/-- Claim C1: for every schedule of any number of concurrent update-loop
callers against the same store, every successful publish is assigned the
next integer version and no two successful publishes claim the same
version: starting from a well-formed store at version `n0`, the list of
successfully published versions is exactly `n0+1, n0+2, ...` in publish
order — a total order over all accepted updates.  (The bound keeps every
version within `usize`, and a store pattern always contains `'.'` by
construction in `AtomicFile::new`.) -/
theorem published_versions_total_order (af : AtomicFile) (tr : Transform) (es : List Event)
    (fs0 : Fs) (n0 N : Nat)
    (hdot : '.' ∈ af.pfx)
    (hok : StoreOk af fs0 n0)
    (hbound : n0 + N ≤ usizeMax) :
    (runEvents af tr es (initSys fs0 N)).published
      = List.range' (n0 + 1) (runEvents af tr es (initSys fs0 N)).published.length :=
  (runEvents_inv hdot hbound (initSys_inv tr N hok) es).2.1

/-- Claim C7 (amended): in the counter demo, two concurrent `modify_json`
callers run a transform that replaces an absent counter by
`Foo::default()` — count 0 — and increments a present one; for every
schedule after which both callers have returned successfully, the final
store holds version 2 and its decoded counter value is exactly 1 (not 2:
the demo initialises the absent counter to 0 rather than 1, matching its
own `count % 2 == 1` assertion). -/
theorem counter_demo_final_count (es : List Event)
    (h0 : (runEvents demoAf demoTr es (initSys emptyFs 2)).callers[0]?
      = some .finishedOk)
    (h1 : (runEvents demoAf demoTr es (initSys emptyFs 2)).callers[1]?
      = some .finishedOk) :
    ((readVersion (runEvents demoAf demoTr es (initSys emptyFs 2)).fs
        (demoAf.path 2)).bind fooCodec.dec) = some { count := 1 } ∧
    (demoAf.load (runEvents demoAf demoTr es (initSys emptyFs 2)).fs).version = 2 := by
  have hdot : '.' ∈ demoAf.pfx := by decide
  have hok : StoreOk demoAf emptyFs 0 := by
    refine ⟨?_, ?_, ?_⟩ <;> simp [emptyFs, fsNames]
  have hbound : 0 + 2 ≤ usizeMax := by norm_num [usizeMax]
  have hinv := runEvents_inv hdot hbound (initSys_inv demoTr 2 hok) es
  obtain ⟨hS, hA2, hA3, hA4, hA5, hA6, hseed1, hseed0, hA7⟩ := hinv
  obtain ⟨a, b, hab⟩ := List.length_eq_two.mp hA3
  rw [hab] at h0 h1
  simp only [List.getElem?_cons_zero, List.getElem?_cons_succ, Option.some_inj] at h0 h1
  have hcnt2 : countOk (runEvents demoAf demoTr es (initSys emptyFs 2)).callers = 2 := by
    rw [hab, h0, h1]
    rfl
  rw [hcnt2] at hA4
  have hA6' := hA6 2 (by rw [hA4]; decide)
  rw [hA4] at hS
  constructor
  · have hchain : chainFrom demoTr
        (if 0 = 0 then none else readVersion emptyFs (demoAf.path 0)) 2
        = some (encFoo { count := 1 }) := by decide
    rw [show (0 : Nat) + 2 = 2 from rfl] at hA6'
    rw [hA6', hchain]
    decide
  · have := latest_eq_cur hS (by norm_num [usizeMax])
    simp only [AtomicFile.load]
    exact this

/-- Claim C7, counterexample to the claim as stated: on the concrete
schedule where caller 0 loads and publishes and then caller 1 loads and
publishes, both calls return successfully, yet the final decoded counter
is 1, not 2. -/
theorem counter_demo_schedule_not_two :
    (runEvents demoAf demoTr [.load 0, .cas 0 false, .load 1, .cas 1 false]
        (initSys emptyFs 2)).callers = [.finishedOk, .finishedOk] ∧
    ((readVersion (runEvents demoAf demoTr [.load 0, .cas 0 false, .load 1, .cas 1 false]
        (initSys emptyFs 2)).fs (demoAf.path 2)).bind fooCodec.dec)
      = some { count := 1 } ∧
    ¬ ((readVersion (runEvents demoAf demoTr [.load 0, .cas 0 false, .load 1, .cas 1 false]
        (initSys emptyFs 2)).fs (demoAf.path 2)).bind fooCodec.dec)
      = some { count := 2 } := by
  refine ⟨by decide, by decide, by decide⟩

/-!
### Witnesses

Each theorem above with hypotheses is exercised at a concrete input, with
every hypothesis discharged by evaluation.
-/

/-- Witness for C1: a two-caller schedule with one conflict-retried attempt
(and one spuriously-reported link) on the fresh demo store publishes
versions 1, 2. -/
theorem published_versions_total_order_witness :
    ('.' ∈ demoAf.pfx ∧ StoreOk demoAf emptyFs 0 ∧ 0 + 2 ≤ usizeMax) ∧
    (runEvents demoAf demoTr [.load 0, .load 1, .cas 0 false, .cas 1 true, .load 1,
        .cas 1 false] (initSys emptyFs 2)).published
      = List.range' (0 + 1) (runEvents demoAf demoTr [.load 0, .load 1, .cas 0 false,
        .cas 1 true, .load 1, .cas 1 false] (initSys emptyFs 2)).published.length :=
  ⟨⟨by decide, ⟨by decide, by decide, by decide⟩, by decide⟩,
    published_versions_total_order demoAf demoTr
      [.load 0, .load 1, .cas 0 false, .cas 1 true, .load 1, .cas 1 false] emptyFs 0 2
      (by decide) ⟨by decide, by decide, by decide⟩ (by decide)⟩

/-- Witness for C2: with version file 2 already present, publishing from
snapshot 1 conflicts and changes nothing. -/
theorem stale_snapshot_conflicts_witness :
    (demoAf.path 2 ∈ fsNames ⟨[(demoAf.path 2, 0), (tempName 5, 9)], []⟩ ∧
      (tempName 5, 9) ∈ (⟨[(demoAf.path 2, 0), (tempName 5, 9)], []⟩ : Fs).entries ∧
      nlink ⟨[(demoAf.path 2, 0), (tempName 5, 9)], []⟩ 9 = 1 ∧
      (fsNames ⟨[(demoAf.path 2, 0), (tempName 5, 9)], []⟩).Nodup) ∧
    (demoAf.compare_and_swap ⟨[(demoAf.path 2, 0), (tempName 5, 9)], []⟩
        { version := 1, path := demoAf.path 1 } ⟨tempName 5, 9⟩ false
      = (⟨[(demoAf.path 2, 0), (tempName 5, 9)], []⟩, .error .alreadyExists) ∧
    readVersion (demoAf.compare_and_swap ⟨[(demoAf.path 2, 0), (tempName 5, 9)], []⟩
        { version := 1, path := demoAf.path 1 } ⟨tempName 5, 9⟩ false).1 (demoAf.path 2)
      = readVersion ⟨[(demoAf.path 2, 0), (tempName 5, 9)], []⟩ (demoAf.path 2)) :=
  ⟨⟨by decide, by decide, by decide, by decide⟩,
    stale_snapshot_conflicts demoAf ⟨[(demoAf.path 2, 0), (tempName 5, 9)], []⟩ 1
      ⟨tempName 5, 9⟩ false (by decide) (by decide) (by decide) (by decide)⟩

/-- Witness for C3: a genuinely claimed target leaves the temp link count
at 1 and conflicts; a spurious `EEXIST` on a free target leaves it at 2 and
succeeds. -/
theorem link_count_disambiguation_witness :
    ((linkat ⟨[(demoAf.path 2, 0), (tempName 5, 9)], []⟩ (tempName 5) (demoAf.path 2)
        true).2 = some .alreadyExists ∧
      nlink (linkat ⟨[(demoAf.path 2, 0), (tempName 5, 9)], []⟩ (tempName 5)
        (demoAf.path 2) true).1 9 = 1 ∧
      demoAf.compare_and_swap ⟨[(demoAf.path 2, 0), (tempName 5, 9)], []⟩
        { version := 1, path := demoAf.path 1 } ⟨tempName 5, 9⟩ true
        = (⟨[(demoAf.path 2, 0), (tempName 5, 9)], []⟩, .error .alreadyExists)) ∧
    ((linkat ⟨[(tempName 5, 9)], []⟩ (tempName 5) (demoAf.path 2) true).2
        = some .alreadyExists ∧
      nlink (linkat ⟨[(tempName 5, 9)], []⟩ (tempName 5) (demoAf.path 2) true).1 9 = 2 ∧
      demoAf.compare_and_swap ⟨[(tempName 5, 9)], []⟩
        { version := 1, path := demoAf.path 1 } ⟨tempName 5, 9⟩ true
        = (⟨[(demoAf.path 2, 9), (tempName 5, 9)], []⟩, .ok ())) :=
  ⟨(link_count_disambiguation demoAf ⟨[(demoAf.path 2, 0), (tempName 5, 9)], []⟩ 1
      ⟨tempName 5, 9⟩ (by decide) (by decide) (by decide)).2.1 (by decide) true,
    (link_count_disambiguation demoAf ⟨[(tempName 5, 9)], []⟩ 1
      ⟨tempName 5, 9⟩ (by decide) (by decide) (by decide)).2.2 (by decide)⟩

/-- Witness for C4: publishing from the current snapshot 1 of a one-version
store succeeds and `load` then returns version 2, with a spuriously
reported link. -/
theorem cas_publishes_next_version_witness :
    (StoreOk demoAf ⟨[(demoAf.path 1, 0)], [(0, ['x'])]⟩ 1 ∧ 1 + 1 ≤ usizeMax ∧
      parse_version (tempName 3) demoAf.pfx = none ∧
      tempName 3 ∉ fsNames ⟨[(demoAf.path 1, 0)], [(0, ['x'])]⟩ ∧
      (∀ e ∈ (⟨[(demoAf.path 1, 0)], [(0, ['x'])]⟩ : Fs).entries, e.2 ≠ 7)) ∧
    ((demoAf.compare_and_swap (writeTemp ⟨[(demoAf.path 1, 0)], [(0, ['x'])]⟩
        ⟨tempName 3, 7⟩ ['y']) { version := 1, path := demoAf.path 1 }
        ⟨tempName 3, 7⟩ true).2 = .ok () ∧
      (demoAf.load (removeName (demoAf.compare_and_swap (writeTemp
          ⟨[(demoAf.path 1, 0)], [(0, ['x'])]⟩ ⟨tempName 3, 7⟩ ['y'])
          { version := 1, path := demoAf.path 1 } ⟨tempName 3, 7⟩ true).1
        (tempName 3))).version = 1 + 1) :=
  ⟨⟨⟨by decide, by decide, by decide⟩, by decide, by decide, by decide, by decide⟩,
    cas_publishes_next_version demoAf ⟨[(demoAf.path 1, 0)], [(0, ['x'])]⟩ 1
      ⟨tempName 3, 7⟩ true ['y'] ⟨by decide, by decide, by decide⟩ (by decide)
      (by decide) (by decide) (by decide)⟩

/-- Witness for C5: a store with a stray `f.+5` entry makes the raw loop
fail with `NotFound` after exactly one attempt; injected interference makes
an attempt conflict and retry; the json loop propagates a decode failure of
stored `null` after exactly one attempt. -/
theorem conflict_retried_other_errors_propagated_witness :
    ((modifyLoop ⟨[], ['f', '.']⟩ (fun b => b) (fun i => ⟨tempName i, 100 + i⟩) false
        (fun _ fs => fs) 3 0 ⟨[(.utf8 ("f.+5".data), 0)], []⟩).2.1
      = some (.error .notFound) ∧ ErrorKind.notFound ≠ .alreadyExists) ∧
    (modifyLoop ⟨[], ['f', '.']⟩ (fun b => b) (fun i => ⟨tempName i, 100 + i⟩) false
        (fun _ fs => fs) 3 0 ⟨[(.utf8 ("f.+5".data), 0)], []⟩
      = (⟨[(.utf8 ("f.+5".data), 0)], []⟩, some (.error .notFound), 1)) ∧
    (modifyLoop ⟨[], ['f', '.']⟩ (fun b => b) (fun i => ⟨tempName i, 100 + i⟩) false
        (fun i fs => if i = 0 then ⟨((⟨[], ['f', '.']⟩ : AtomicFile).path 1, 50)
          :: fs.entries, (50, ['x']) :: fs.data⟩ else fs) 2 0 emptyFs
      = modifyLoop ⟨[], ['f', '.']⟩ (fun b => b) (fun i => ⟨tempName i, 100 + i⟩) false
        (fun i fs => if i = 0 then ⟨((⟨[], ['f', '.']⟩ : AtomicFile).path 1, 50)
          :: fs.entries, (50, ['x']) :: fs.data⟩ else fs) 1 1
        ⟨[(.utf8 ("f.1".data), 50)], [(100, []), (50, ['x'])]⟩) ∧
    ((modifyJsonLoop ⟨[], ['f', '.']⟩ fooCodec (fun x => x)
        (fun i => ⟨tempName i, 100 + i⟩) false (fun _ fs => fs) 3 0
        ⟨[(.utf8 ("f.1".data), 0)], [(0, "null".data)]⟩).2.1
      = some (.error .invalidData) ∧ ErrorKind.invalidData ≠ .alreadyExists) ∧
    (modifyJsonLoop ⟨[], ['f', '.']⟩ fooCodec (fun x => x)
        (fun i => ⟨tempName i, 100 + i⟩) false (fun _ fs => fs) 3 0
        ⟨[(.utf8 ("f.1".data), 0)], [(0, "null".data)]⟩
      = (⟨[(.utf8 ("f.1".data), 0)], [(0, "null".data)]⟩,
          some (.error .invalidData), 1)) ∧
    (modifyJsonLoop ⟨[], ['f', '.']⟩ fooCodec (fun x => x)
        (fun i => ⟨tempName i, 100 + i⟩) false
        (fun i fs => if i = 0 then ⟨((⟨[], ['f', '.']⟩ : AtomicFile).path 1, 50)
          :: fs.entries, (50, ['x']) :: fs.data⟩ else fs) 2 0 emptyFs
      = modifyJsonLoop ⟨[], ['f', '.']⟩ fooCodec (fun x => x)
        (fun i => ⟨tempName i, 100 + i⟩) false
        (fun i fs => if i = 0 then ⟨((⟨[], ['f', '.']⟩ : AtomicFile).path 1, 50)
          :: fs.entries, (50, ['x']) :: fs.data⟩ else fs) 1 1
        ⟨[(.utf8 ("f.1".data), 50)], [(100, "null".data), (50, ['x'])]⟩) ∧
    (modifyJsonLoop ⟨[], ['f', '.']⟩ fooCodec (fun x => x)
        (fun i => ⟨tempName i, 100 + i⟩) false (fun _ fs => fs) 3 0
        ⟨[(.utf8 ("f.1".data), 0)], [(0, "null".data)]⟩
      = (⟨[(.utf8 ("f.1".data), 0)], [(0, "null".data)]⟩,
          some (.error .invalidData), 0 + 1)) :=
  ⟨⟨rfl, conflict_retried_other_errors_propagated.1 ⟨[], ['f', '.']⟩ (fun b => b)
      (fun i => ⟨tempName i, 100 + i⟩) false (fun _ fs => fs) 3 0
      ⟨[(.utf8 ("f.+5".data), 0)], []⟩ .notFound rfl⟩,
    conflict_retried_other_errors_propagated.2.1 ⟨[], ['f', '.']⟩ (fun b => b)
      (fun i => ⟨tempName i, 100 + i⟩) false (fun _ fs => fs) 2 0
      ⟨[(.utf8 ("f.+5".data), 0)], []⟩ ⟨[(.utf8 ("f.+5".data), 0)], []⟩ .notFound
      rfl (by decide),
    conflict_retried_other_errors_propagated.2.2.1 ⟨[], ['f', '.']⟩ (fun b => b)
      (fun i => ⟨tempName i, 100 + i⟩) false
      (fun i fs => if i = 0 then ⟨((⟨[], ['f', '.']⟩ : AtomicFile).path 1, 50)
        :: fs.entries, (50, ['x']) :: fs.data⟩ else fs) 1 0 emptyFs
      ⟨[(.utf8 ("f.1".data), 50)], [(100, []), (50, ['x'])]⟩ rfl,
    ⟨rfl, conflict_retried_other_errors_propagated.2.2.2.1 Foo ⟨[], ['f', '.']⟩
      fooCodec (fun x => x) (fun i => ⟨tempName i, 100 + i⟩) false (fun _ fs => fs) 3 0
      ⟨[(.utf8 ("f.1".data), 0)], [(0, "null".data)]⟩ .invalidData rfl⟩,
    conflict_retried_other_errors_propagated.2.2.2.2.1 Foo ⟨[], ['f', '.']⟩ fooCodec
      (fun x => x) (fun i => ⟨tempName i, 100 + i⟩) false (fun _ fs => fs) 2 0
      ⟨[(.utf8 ("f.1".data), 0)], [(0, "null".data)]⟩
      ⟨[(.utf8 ("f.1".data), 0)], [(0, "null".data)]⟩ .invalidData
      rfl (by decide),
    conflict_retried_other_errors_propagated.2.2.2.2.2.1 Foo ⟨[], ['f', '.']⟩ fooCodec
      (fun x => x) (fun i => ⟨tempName i, 100 + i⟩) false
      (fun i fs => if i = 0 then ⟨((⟨[], ['f', '.']⟩ : AtomicFile).path 1, 50)
        :: fs.entries, (50, ['x']) :: fs.data⟩ else fs) 1 0 emptyFs
      ⟨[(.utf8 ("f.1".data), 50)], [(100, "null".data), (50, ['x'])]⟩ rfl,
    conflict_retried_other_errors_propagated.2.2.2.2.2.2 Foo ⟨[], ['f', '.']⟩ fooCodec
      (fun x => x) (fun i => ⟨tempName i, 100 + i⟩) false (fun _ fs => fs) 2 0
      ⟨[(.utf8 ("f.1".data), 0)], [(0, "null".data)]⟩ ("null".data)
      rfl (by decide)⟩

/-- Witness for C6: on a directory with matching, junk and non-UTF-8
entries the maximum parsed version is returned, junk never affects it. -/
theorem load_is_max_parsed_version_witness :
    (parse_version (.utf8 ("f.3".data)) ("f.".data) = some 3 ∧
      3 ≤ latest_version [.utf8 ("f.3".data), .utf8 ("f.12".data), .utf8 ("junk".data),
        .nonUtf8 0] ("f.".data)) ∧
    (latest_version [.utf8 ("f.3".data), .utf8 ("f.12".data), .utf8 ("junk".data),
        .nonUtf8 0] ("f.".data) = 0 ∨
      ∃ nm ∈ [OsName.utf8 ("f.3".data), .utf8 ("f.12".data), .utf8 ("junk".data),
        .nonUtf8 0], parse_version nm ("f.".data)
          = some (latest_version [.utf8 ("f.3".data), .utf8 ("f.12".data),
            .utf8 ("junk".data), .nonUtf8 0] ("f.".data))) ∧
    (latest_version (.utf8 ("zz".data) :: [.utf8 ("f.3".data), .utf8 ("f.12".data),
        .utf8 ("junk".data), .nonUtf8 0]) ("f.".data)
      = latest_version [.utf8 ("f.3".data), .utf8 ("f.12".data), .utf8 ("junk".data),
        .nonUtf8 0] ("f.".data)) ∧
    (latest_version [.utf8 ("junk".data), .nonUtf8 1] ("f.".data) = 0) ∧
    (parse_version (.utf8 ("zz".data)) ("f.".data) = none) ∧
    (parse_version (.utf8 ("f.x1".data)) ("f.".data) = none) :=
  ⟨⟨by decide, (load_is_max_parsed_version ("f.".data) [.utf8 ("f.3".data),
      .utf8 ("f.12".data), .utf8 ("junk".data), .nonUtf8 0]).1
      (OsName.utf8 ("f.3".data)) (by decide) 3 (by decide)⟩,
    (load_is_max_parsed_version ("f.".data) [.utf8 ("f.3".data), .utf8 ("f.12".data),
      .utf8 ("junk".data), .nonUtf8 0]).2.1,
    (load_is_max_parsed_version ("f.".data) [.utf8 ("f.3".data), .utf8 ("f.12".data),
      .utf8 ("junk".data), .nonUtf8 0]).2.2.1 (OsName.utf8 ("zz".data)) (by decide),
    (load_is_max_parsed_version ("f.".data) [.utf8 ("junk".data),
      .nonUtf8 1]).2.2.2.1 (by decide),
    (load_is_max_parsed_version ("f.".data) [.utf8 ("f.3".data), .utf8 ("f.12".data),
      .utf8 ("junk".data), .nonUtf8 0]).2.2.2.2.1 ("zz".data) (by decide),
    (load_is_max_parsed_version ("f.".data) [.utf8 ("f.3".data), .utf8 ("f.12".data),
      .utf8 ("junk".data), .nonUtf8 0]).2.2.2.2.2 ("f.x1".data) (by decide)⟩

/-- Witness for C7 (amended): a racing schedule in which caller 1 loses the
race, retries, and both finish; the final counter decodes to 1. -/
theorem counter_demo_final_count_witness :
    ((runEvents demoAf demoTr [.load 0, .load 1, .cas 0 false, .cas 1 true, .load 1,
        .cas 1 false] (initSys emptyFs 2)).callers[0]? = some .finishedOk ∧
      (runEvents demoAf demoTr [.load 0, .load 1, .cas 0 false, .cas 1 true, .load 1,
        .cas 1 false] (initSys emptyFs 2)).callers[1]? = some .finishedOk) ∧
    (((readVersion (runEvents demoAf demoTr [.load 0, .load 1, .cas 0 false,
        .cas 1 true, .load 1, .cas 1 false] (initSys emptyFs 2)).fs
        (demoAf.path 2)).bind fooCodec.dec) = some { count := 1 } ∧
      (demoAf.load (runEvents demoAf demoTr [.load 0, .load 1, .cas 0 false,
        .cas 1 true, .load 1, .cas 1 false] (initSys emptyFs 2)).fs).version = 2) :=
  ⟨⟨by decide, by decide⟩,
    counter_demo_final_count
      [.load 0, .load 1, .cas 0 false, .cas 1 true, .load 1, .cas 1 false]
      (by decide) (by decide)⟩

/-- Witness for C8: the empty directory loads as version 0 and opens to no
content. -/
theorem fresh_store_loads_version_zero_witness :
    (∀ nm ∈ fsNames emptyFs, parse_version nm demoAf.pfx = none) ∧
    ((demoAf.load emptyFs).version = 0 ∧
      (demoAf.load emptyFs).openFile emptyFs = .ok none) :=
  ⟨by decide, fresh_store_loads_version_zero demoAf emptyFs (by decide)⟩

/-- Witness for C9: a transform leaving the demo value absent publishes the
bytes `null` as version 1 of a fresh store, and the json loop on a store
holding `null` fails to decode immediately. -/
theorem absent_value_roundtrip_asymmetry_witness :
    ((fun (_ : Option Foo) => (none : Option Foo)) none = none ∧
      ((modifyJsonBody demoAf fooCodec (fun _ => none) ⟨tempName 0, 0⟩ false
          (fun x => x) emptyFs).2 = .ok () ∧
        readVersion (modifyJsonBody demoAf fooCodec (fun _ => none) ⟨tempName 0, 0⟩
          false (fun x => x) emptyFs).1 (demoAf.path 1) = some nullBytes)) ∧
    (readRO ⟨[(demoAf.path 1, 0)], [(0, nullBytes)]⟩
        (demoAf.load ⟨[(demoAf.path 1, 0)], [(0, nullBytes)]⟩) = .ok (some nullBytes) ∧
      fooCodec.dec nullBytes = none ∧
      modifyJsonLoop demoAf fooCodec (fun x => x) (fun i => ⟨tempName i, 100 + i⟩)
        false (fun _ fs => fs) 3 0 ⟨[(demoAf.path 1, 0)], [(0, nullBytes)]⟩
      = (⟨[(demoAf.path 1, 0)], [(0, nullBytes)]⟩, some (.error .invalidData), 0 + 1)) :=
  ⟨⟨rfl, absent_value_roundtrip_asymmetry.1 Foo demoAf fooCodec (fun _ => none)
      ⟨tempName 0, 0⟩ false emptyFs (by decide) (by decide) (by decide) (by decide)
      (by decide) rfl⟩,
    rfl, by decide,
    absent_value_roundtrip_asymmetry.2 Foo demoAf fooCodec (fun x => x)
      (fun i => ⟨tempName i, 100 + i⟩) false (fun _ fs => fs) 2 0
      ⟨[(demoAf.path 1, 0)], [(0, nullBytes)]⟩ rfl (by decide)⟩

/-- Witness for C10: constructing a store at `a/..` creates `a` and `a/..`
on disk and still fails with `InvalidInput`. -/
theorem new_creates_dirs_before_validating_witness :
    (fileNameOf [.normal (.utf8 ("a".data)), .parentDir] = none ∨
      ∃ id, fileNameOf [.normal (.utf8 ("a".data)), .parentDir]
        = some (.nonUtf8 id)) ∧
    ((AtomicFile.new ⟨[]⟩ [.normal (.utf8 ("a".data)), .parentDir]).2
        = .error .invalidInput ∧
      ∀ q ∈ ancestors [.normal (.utf8 ("a".data)), .parentDir],
        q ∈ (AtomicFile.new ⟨[]⟩ [.normal (.utf8 ("a".data)), .parentDir]).1.dirs) :=
  ⟨Or.inl (by decide),
    new_creates_dirs_before_validating ⟨[]⟩ [.normal (.utf8 ("a".data)), .parentDir]
      (Or.inl (by decide))⟩

end AtomicStore
